import Mathlib

/-!
# scipipe task core: command formatting and task execution

A shallow embedding of `task.go` (package `scipipe`): the command formatter
`formatCommand`, the task constructor `NewSciTask` and the execution method
`SciTask.Execute` with its helpers.  Go strings are lists of characters, Go
maps are association lists (lookup takes the first entry of a key, iteration
follows the list, so a statement proved for every list holds for every
iteration order of a map), and the effects of `Execute` are recorded both as a
file-system state and as a trace of events.
-/

namespace SciPipe

/-- Go `string`, as the list of its characters. -/
abbrev Str := List Char

deriving instance DecidableEq for Except

/-! ## Provenance records and data handles -/

/-- Provenance record (`AuditInfo`).  Field order: command, params, execution time in
milliseconds, upstream records keyed by path (`none` is a nil record). -/
inductive AuditInfo where
  | mk : Str → List (Str × Str) → Nat → List (Str × Option AuditInfo) → AuditInfo

namespace AuditInfo

/-- Field `Command`. -/
def Command : AuditInfo → Str
  | mk c _ _ _ => c

/-- Field `Params`. -/
def Params : AuditInfo → List (Str × Str)
  | mk _ p _ _ => p

/-- Field `ExecutionTimeMilliSeconds`. -/
def ExecutionTimeMilliSeconds : AuditInfo → Nat
  | mk _ _ t _ => t

/-- Field `UpstreamAuditInfos`. -/
def UpstreamAuditInfos : AuditInfo → List (Str × Option AuditInfo)
  | mk _ _ _ u => u

end AuditInfo

/-- Modelled from the spec: `InformationPacket`, the data handle, whose declaration is not
in `task.go`: a base path, the streaming flag `doStream` and the attached provenance
record (absent until the producing task finishes). -/
structure InformationPacket where
  path : Str
  doStream : Bool
  auditInfo : Option AuditInfo

namespace InformationPacket

/-- Modelled from the spec: `GetPath`, the canonical final path of the handle. -/
def GetPath (ip : InformationPacket) : Str := ip.path

/-- Modelled from the spec: `GetTempPath`, the temp path `basePath + ".tmp"`. -/
def GetTempPath (ip : InformationPacket) : Str := ip.path ++ ".tmp".toList

/-- Modelled from the spec: `GetFifoPath`, the FIFO path `basePath + ".fifo"`. -/
def GetFifoPath (ip : InformationPacket) : Str := ip.path ++ ".fifo".toList

/-- Modelled from the spec: the provenance-sidecar path `basePath + ".audit.json"`. -/
def GetAuditFilePath (ip : InformationPacket) : Str := ip.path ++ ".audit.json".toList

/-- Modelled from the spec: `SetAuditInfo`, attaching a provenance record to the handle. -/
def SetAuditInfo (ip : InformationPacket) (ai : AuditInfo) : InformationPacket :=
  { ip with auditInfo := some ai }

end InformationPacket

/-- Modelled from the spec: `NewInformationPacket`, a fresh file-backed handle for a path,
with no provenance record yet. -/
def NewInformationPacket (path : Str) : InformationPacket :=
  { path := path, doStream := false, auditInfo := none }

/-- Go `map[string]*InformationPacket`; a key that is absent and a key bound to `nil` are
both a failed lookup. -/
abbrev Targets := List (Str × InformationPacket)

/-- Go `map[string]string`. -/
abbrev ParamMap := List (Str × Str)

/-- Go `params[name]`: the value of the key, the empty string when the key is absent. -/
def paramValue (params : ParamMap) (name : Str) : Str := (params.lookup name).getD []

/-! ## Placeholders -/

/-- One result of `FindAllStringSubmatch`: `whole` is `m[0]`, `typ` is `m[1]`, `name` is
`m[2]`. -/
structure Submatch where
  whole : Str
  typ : Str
  name : Str
deriving DecidableEq

/-- Modelled from the spec: the type tags of the placeholder pattern returned by
`getShellCommandPlaceHolderRegex` (not in `task.go`), in the order the alternatives are
tried. -/
def placeHolderTypes : List Str := ["o".toList, "os".toList, "i".toList, "p".toList]

/-- Modelled from the spec: the characters of a placeholder identifier: no brace, no colon,
no whitespace. -/
def nameChar (c : Char) : Bool :=
  !(c == '{') && !(c == '}') && !(c == ':') && !c.isWhitespace

/-- Try one type tag on the text after the opening brace: the tag, a colon, a non-empty
greedy run of identifier characters, and the closing brace. -/
def matchType (r : Str) (t : Str) : Option Submatch :=
  if (t ++ [':']).isPrefixOf r then
    let r1 := r.drop (t.length + 1)
    let name := r1.takeWhile nameChar
    if name ≠ [] ∧ (r1.dropWhile nameChar).head? = some '}' then
      some ⟨'{' :: (t ++ ':' :: (name ++ ['}'])), t, name⟩
    else none
  else none

/-- Modelled from the spec: a match of the placeholder pattern `{type:name}`, type one of
`i`, `o`, `os`, `p`, anchored at the head of the text. -/
def matchAt : Str → Option Submatch
  | [] => none
  | c :: r => if c = '{' then placeHolderTypes.findSome? (matchType r) else none

/-- A segment of a scanned template: a character outside every match, or a match. -/
inductive Seg where
  | lit : Char → Seg
  | ph : Submatch → Seg
deriving DecidableEq

/-- Left-to-right scan for non-overlapping matches; the counter is the number of
characters of the current match still to be passed over. -/
def scanFrom : Nat → Str → List Seg
  | _, [] => []
  | k + 1, _ :: s => scanFrom k s
  | 0, c :: s =>
    match matchAt (c :: s) with
    | some m => Seg.ph m :: scanFrom (m.whole.length - 1) s
    | none => Seg.lit c :: scanFrom 0 s

/-- The template cut into its matches and the characters between them. -/
def scan (s : Str) : List Seg := scanFrom 0 s

/-- The match carried by a segment. -/
def Seg.match? : Seg → Option Submatch
  | Seg.lit _ => none
  | Seg.ph m => some m

/-- Go `r.FindAllStringSubmatch(cmd, -1)` for the placeholder pattern: all leftmost,
non-overlapping matches in order. -/
def findAll (s : Str) : List Submatch := (scan s).filterMap Seg.match?

/-! ## Go `strings.Replace` with a negative count -/

/-- Replace every non-overlapping occurrence of a non-empty `old`, scanning from the left;
the counter is the number of characters of the current occurrence still to be dropped. -/
def replaceFrom (old new : Str) : Nat → Str → Str
  | _, [] => []
  | k + 1, _ :: s => replaceFrom old new k s
  | 0, c :: s =>
    if old.isPrefixOf (c :: s) then new ++ replaceFrom old new (old.length - 1) s
    else c :: replaceFrom old new 0 s

/-- Go `strings.Replace(s, old, new, -1)`; an empty `old` matches at the beginning of the
string and after every character. -/
def strReplace (s old new : Str) : Str :=
  if old = [] then new ++ s.flatMap (fun c => c :: new) else replaceFrom old new 0 s

/-! ## formatCommand -/

/-- Modelled from the spec: `Check`, which is not in `task.go`, called with an error: the
failure is fatal, the program stops with the message and nothing after the call is run. -/
def Check (msg : Str) : Except Str Str := Except.error msg

/-- The branches of one iteration of the loop of `formatCommand` that compute `filePath`:
the text found for the match, or the failure raised through `Check`.  `cmd` is the
command as rewritten so far. -/
def placeHolderPath (inTargets outTargets : Targets) (params : ParamMap) (cmd : Str)
    (m : Submatch) : Except Str Str :=
  if m.typ = "o".toList ∨ m.typ = "os".toList then
    match outTargets.lookup m.name with
    | none =>
      Check ("Missing outpath for outport '".toList ++ m.name ++
        "' for command '".toList ++ cmd ++ "'".toList)
    | some tgt =>
      if m.typ = "o".toList then Except.ok tgt.GetTempPath
      else if m.typ = "os".toList then Except.ok tgt.GetFifoPath
      else Except.ok []
  else if m.typ = "i".toList then
    match inTargets.lookup m.name with
    | none =>
      Check ("Missing intarget for inport '".toList ++ m.name ++
        "' for command '".toList ++ cmd ++ "'".toList)
    | some tgt =>
      if tgt.GetPath = [] then
        Check ("Missing inpath for inport '".toList ++ m.name ++
          "' for command '".toList ++ cmd ++ "'".toList)
      else if tgt.doStream then Except.ok tgt.GetFifoPath
      else Except.ok tgt.GetPath
  else if m.typ = "p".toList then
    if paramValue params m.name = [] then
      Check ("Missing param value param '".toList ++ m.name ++
        "' for command '".toList ++ cmd ++ "'".toList)
    else Except.ok (paramValue params m.name)
  else Except.ok []

/-- One iteration of the loop of `formatCommand` up to the call of `str.Replace`: the
branches, then the check that `filePath` is not empty. -/
def placeHolderValue (inTargets outTargets : Targets) (params : ParamMap) (cmd : Str)
    (m : Submatch) : Except Str Str :=
  match placeHolderPath inTargets outTargets params cmd m with
  | Except.error e => Except.error e
  | Except.ok filePath =>
    if filePath = [] then
      Check ("Replace failed for port ".toList ++ m.name ++ " for command '".toList
        ++ cmd ++ "'".toList)
    else Except.ok filePath

/-- The loop of `formatCommand` over the matches found in the template. -/
def formatLoop (inTargets outTargets : Targets) (params : ParamMap) :
    Str → List Submatch → Except Str Str
  | cmd, [] => Except.ok cmd
  | cmd, m :: ms =>
    match placeHolderValue inTargets outTargets params cmd m with
    | Except.error e => Except.error e
    | Except.ok filePath =>
      formatLoop inTargets outTargets params (strReplace cmd m.whole filePath) ms

/-- The last step of `formatCommand`: a non-empty prepend string and one space in front
of the command. -/
def addPrepend (prepend cmd : Str) : Str :=
  if prepend ≠ [] then prepend ++ ' ' :: cmd else cmd

/-- `formatCommand`: `Except.error msg` is the fatal failure raised through `Check`. -/
def formatCommand (cmd : Str) (inTargets outTargets : Targets) (params : ParamMap)
    (prepend : Str) : Except Str Str :=
  match formatLoop inTargets outTargets params cmd (findAll cmd) with
  | Except.error e => Except.error e
  | Except.ok c => Except.ok (addPrepend prepend c)

/-! ## Tasks -/

/-- Modelled from the spec: the execution-mode enumeration `ExecMode`, declared outside
`task.go`: Local, BatchQueue (SLURM) and Cluster (Kubernetes). -/
inductive ExecMode where
  | ExecModeLocal
  | ExecModeSLURM
  | ExecModeK8s
deriving DecidableEq

/-- The data fields of `SciTask`.  The channel `Done` is not a field here: what `Execute`
does with it is recorded in the trace. -/
structure TaskData where
  Name : Str
  Command : Str
  ExecMode : ExecMode
  InTargets : Targets
  OutTargets : Targets
  Params : ParamMap
  KubeConfigPath : Str
  Image : Str
  DataFolder : Str

/-- The file system: the existing paths with their contents. -/
abbrev FileSystem := List (Str × Str)

/-- Whether `os.Stat` of the path succeeds. -/
def FileSystem.fileExists (fs : FileSystem) (p : Str) : Bool := (fs.lookup p).isSome

/-- Create or overwrite a file. -/
def FileSystem.write (fs : FileSystem) (p content : Str) : FileSystem :=
  (p, content) :: fs.filter (fun e => !(e.1 == p))

/-- The effect of `os.Rename`: `none` when the old path does not exist. -/
def FileSystem.rename (fs : FileSystem) (old new : Str) : Option FileSystem :=
  match fs.lookup old with
  | none => none
  | some content => some ((new, content) :: fs.filter (fun e => !(e.1 == old) && !(e.1 == new)))

/-- `SciTask`: the data fields and `CustomExecute`, a function that receives the task and
may change both the task and the file system; it yields `none` when it does not return
(it stops the program). -/
structure SciTask extends TaskData where
  CustomExecute : Option (TaskData → FileSystem → Option (TaskData × FileSystem))

/-- What lies outside the program: the shell (`bash -c cmd`: the file system it leaves and
whether it exited with status zero), the submission of a Kubernetes job (`none` when
`CheckErr` stops the program), the measured execution time in milliseconds, and the
serialisation used for the provenance sidecar. -/
structure Env where
  bash : Str → FileSystem → FileSystem × Bool
  kube : Str → Str → Str → Str → Str → FileSystem → Option FileSystem
  elapsedMs : Nat
  encodeAudit : AuditInfo → Str

/-- The levelled loggers used outside debugging. -/
inductive LogLevel where
  | info
  | warning
  | error
  | audit
deriving DecidableEq

/-- What `Execute` does, in order.  Debug messages are not recorded. -/
inductive Event where
  | log : LogLevel → Str → Event
  | customExecute : Event
  | bash : Str → Event
  | kubeSubmit : Str → Event
  | exit : Nat → Event
  | setAuditInfo : Str → Event
  | writeAuditLog : Str → Event
  | rename : Str → Str → Event
  | sendDone : Event
  | closeDone : Event
deriving DecidableEq

/-- How a run of `Execute` ends: it returns, the process exits with a status
(`os.Exit`), or the program is stopped by a fatal failure (a failed `Check` or `CheckErr`,
a custom function that does not return); what the program does while it is stopped this
way is not described. -/
inductive Status where
  | returned
  | exited : Nat → Status
  | aborted
deriving DecidableEq

/-- The outcome of a run: the task and the file system as they are left, the trace of
events, and how the run ended. -/
structure Run where
  task : TaskData
  fs : FileSystem
  trace : List Event
  status : Status

/-- The body of the loop of `anyOutputExists`: the flag and the messages after one more
output. -/
def anyOutputExistsStep (fs : FileSystem) (acc : Bool × List Event)
    (kv : Str × InformationPacket) : Bool × List Event :=
  if kv.2.doStream then acc
  else
    let acc1 := if fs.fileExists kv.2.GetPath
      then (true, acc.2 ++ [Event.log LogLevel.info kv.2.GetPath]) else acc
    if fs.fileExists kv.2.GetTempPath
      then (true, acc1.2 ++ [Event.log LogLevel.warning kv.2.GetTempPath]) else acc1

/-- `anyOutputExists`: whether the final or the temp path of some non-streaming output
exists, with the messages logged on the way. -/
def anyOutputExists (t : TaskData) (fs : FileSystem) : Bool × List Event :=
  t.OutTargets.foldl (anyOutputExistsStep fs) (false, [])

/-- The body of the loop of `fifosInOutTargetsMissing`. -/
def fifosMissingStep (fs : FileSystem) (acc : Bool × List Event)
    (kv : Str × InformationPacket) : Bool × List Event :=
  if kv.2.doStream then
    if fs.fileExists kv.2.GetFifoPath then acc
    else (true, acc.2 ++ [Event.log LogLevel.warning kv.2.GetFifoPath])
  else acc

/-- `fifosInOutTargetsMissing`: whether the FIFO of some streaming output does not
exist, with the warnings logged on the way. -/
def fifosInOutTargetsMissing (t : TaskData) (fs : FileSystem) : Bool × List Event :=
  t.OutTargets.foldl (fifosMissingStep fs) (false, [])

/-- The result of the execution step of `Execute`. -/
inductive StepResult where
  | done : TaskData → FileSystem → List Event → StepResult
  | stopped : FileSystem → List Event → Status → StepResult

/-- `executeCommand`: run the command through `bash -c`; a failure is logged and the
process exits with status 126. -/
def executeCommand (env : Env) (t : TaskData) (cmd : Str) (fs : FileSystem) : StepResult :=
  match env.bash cmd fs with
  | (fs1, true) =>
    StepResult.done t fs1 [Event.log LogLevel.audit cmd, Event.bash cmd]
  | (fs1, false) =>
    StepResult.stopped fs1
      [Event.log LogLevel.audit cmd, Event.bash cmd, Event.log LogLevel.error cmd, Event.exit 126]
      (Status.exited 126)

/-- `executeCommandonKubernetes`: build and submit the job; every failed `CheckErr` stops
the program. -/
def executeCommandonKubernetes (env : Env) (t : TaskData) (command kubeConfigPath imageName
    dataFolder : Str) (fs : FileSystem) : StepResult :=
  match env.kube t.Name command kubeConfigPath imageName dataFolder fs with
  | some fs1 => StepResult.done t fs1 [Event.kubeSubmit command]
  | none => StepResult.stopped fs [Event.kubeSubmit command] Status.aborted

/-- The execution step of `Execute`: the custom function when there is one, else the
backend chosen by the execution mode. -/
def executionStep (env : Env) (t : SciTask) (fs : FileSystem) : StepResult :=
  match t.CustomExecute with
  | some f =>
    match f t.toTaskData fs with
    | some (t1, fs1) =>
      StepResult.done t1 fs1 [Event.log LogLevel.audit t.Name, Event.customExecute]
    | none =>
      StepResult.stopped fs [Event.log LogLevel.audit t.Name, Event.customExecute] Status.aborted
  | none =>
    match t.ExecMode with
    | ExecMode.ExecModeLocal => executeCommand env t.toTaskData t.Command fs
    | ExecMode.ExecModeSLURM =>
      StepResult.done t.toTaskData fs [Event.log LogLevel.error t.Name]
    | ExecMode.ExecModeK8s =>
      executeCommandonKubernetes env t.toTaskData t.Command t.KubeConfigPath t.Image
        t.DataFolder fs

/-- Modelled from the spec: `NewAuditInfo`, an empty provenance record. -/
def NewAuditInfo : AuditInfo := AuditInfo.mk [] [] 0 []

/-- Go map assignment `m[k] = v`: the entry of the key is replaced, a new key is added. -/
def mapInsert {β : Type} (k : Str) (v : β) : List (Str × β) → List (Str × β)
  | [] => [(k, v)]
  | e :: es => if e.1 = k then (k, v) :: es else e :: mapInsert k v es

/-- The loop of `Execute` over the inputs: each input's record is stored in the upstream
map under the input's path. -/
def addUpstream (inTargets : Targets) (upstream : List (Str × Option AuditInfo)) :
    List (Str × Option AuditInfo) :=
  inTargets.foldl (fun up kv => mapInsert kv.2.GetPath kv.2.auditInfo up) upstream

/-- The provenance record `Execute` builds after the execution step. -/
def buildAuditInfo (env : Env) (t : TaskData) : AuditInfo :=
  AuditInfo.mk t.Command t.Params env.elapsedMs
    (addUpstream t.InTargets NewAuditInfo.UpstreamAuditInfos)

/-- Modelled from the spec: `WriteAuditLogToFile`, persisting the handle's record as a
sidecar file next to the handle's path. -/
def WriteAuditLogToFile (env : Env) (ip : InformationPacket) (fs : FileSystem) : FileSystem :=
  match ip.auditInfo with
  | some ai => fs.write ip.GetAuditFilePath (env.encodeAudit ai)
  | none => fs

/-- The loop of `Execute` over the outputs: the record is attached to each output and
written to its sidecar file. -/
def attachAuditInfo (env : Env) (ai : AuditInfo) :
    Targets → FileSystem → Targets × FileSystem × List Event
  | [], fs => ([], fs, [])
  | (k, oip) :: rest, fs =>
    let oip1 := oip.SetAuditInfo ai
    let r := attachAuditInfo env ai rest (WriteAuditLogToFile env oip1 fs)
    ((k, oip1) :: r.1, r.2.1,
      Event.setAuditInfo oip1.GetPath :: Event.writeAuditLog oip1.GetAuditFilePath :: r.2.2)

/-- Modelled from the spec: `Atomize`, the rename of the handle's temp path to its final
path.  The spec gives a task no error return (a failing task fails the entire run), so a
rename that cannot be done does not return to `Execute`: the result is then `none`. -/
def Atomize (ip : InformationPacket) (fs : FileSystem) : Option FileSystem :=
  fs.rename ip.GetTempPath ip.GetPath

/-- `atomizeTargets`: every output that is not streaming is atomized; the events
performed, and the resulting file system unless a rename stopped the program. -/
def atomizeTargets : Targets → FileSystem → List Event × Option FileSystem
  | [], fs => ([], some fs)
  | (_, tgt) :: rest, fs =>
    if tgt.doStream then atomizeTargets rest fs
    else
      match Atomize tgt fs with
      | none => ([Event.rename tgt.GetTempPath tgt.GetPath], none)
      | some fs1 =>
        let r := atomizeTargets rest fs1
        (Event.rename tgt.GetTempPath tgt.GetPath :: r.1, r.2)

/-- The end of a run that returns: the value sent on `Done`, then the deferred
`close(t.Done)`. -/
def finish (t : TaskData) (fs : FileSystem) (trace : List Event) : Run :=
  { task := t, fs := fs, trace := trace ++ [Event.sendDone, Event.closeDone],
    status := Status.returned }

/-- Whether `Execute` leaves out the execution step: the condition of its `if` is false. -/
def skipped (t : TaskData) (fs : FileSystem) : Bool :=
  (anyOutputExists t fs).1 || (fifosInOutTargetsMissing t fs).1

/-- `SciTask.Execute`. -/
def Execute (env : Env) (t : SciTask) (fs : FileSystem) : Run :=
  let chk1 := anyOutputExists t.toTaskData fs
  if chk1.1 then finish t.toTaskData fs chk1.2
  else
    let chk2 := fifosInOutTargetsMissing t.toTaskData fs
    if chk2.1 then finish t.toTaskData fs (chk1.2 ++ chk2.2)
    else
      match executionStep env t fs with
      | StepResult.stopped fs1 ev st =>
        { task := t.toTaskData, fs := fs1, trace := chk1.2 ++ chk2.2 ++ ev, status := st }
      | StepResult.done t1 fs1 ev =>
        let att := attachAuditInfo env (buildAuditInfo env t1) t1.OutTargets fs1
        let t2 : TaskData := { t1 with OutTargets := att.1 }
        match atomizeTargets t2.OutTargets att.2.1 with
        | (ev3, none) =>
          { task := t2, fs := att.2.1, trace := chk1.2 ++ chk2.2 ++ ev ++ att.2.2 ++ ev3,
            status := Status.aborted }
        | (ev3, some fs3) => finish t2 fs3 (chk1.2 ++ chk2.2 ++ ev ++ att.2.2 ++ ev3)

/-- The task `NewSciTask` starts from, as the output path functions receive it: no
outputs and no command yet. -/
def newTaskData (name : Str) (inTargets : Targets) (params : ParamMap) (execMode : ExecMode) :
    TaskData :=
  { Name := name, Command := [], ExecMode := execMode, InTargets := inTargets,
    OutTargets := [], Params := params, KubeConfigPath := [], Image := [], DataFolder := [] }

/-- The first loop of `NewSciTask`: one output per path function, streaming when its port
is marked so. -/
def newOutTargets (t : TaskData) (outPathFuncs : List (Str × (TaskData → Str)))
    (outPortsDoStream : List (Str × Bool)) : Targets :=
  outPathFuncs.map (fun kf =>
    (kf.1, { NewInformationPacket (kf.2 t) with
      doStream := (outPortsDoStream.lookup kf.1).getD false }))

/-- `NewSciTask`: the outputs are built from the path functions, then the command is
formatted; a failure of `formatCommand` stops the program and no task is returned. -/
def NewSciTask (name cmdPat : Str) (inTargets : Targets)
    (outPathFuncs : List (Str × (TaskData → Str))) (outPortsDoStream : List (Str × Bool))
    (params : ParamMap) (prepend : Str) (execMode : ExecMode) : Except Str SciTask :=
  let t := newTaskData name inTargets params execMode
  let outTargets := newOutTargets t outPathFuncs outPortsDoStream
  match formatCommand cmdPat inTargets outTargets params prepend with
  | Except.error e => Except.error e
  | Except.ok c =>
    Except.ok { t with OutTargets := outTargets, Command := c, CustomExecute := none }

/-! ## Traces -/

/-- Whether an event is a log message. -/
def Event.isLog : Event → Bool
  | Event.log _ _ => true
  | _ => false

/-- The events of a trace that are not log messages. -/
def effects (trace : List Event) : List Event := trace.filter (fun e => !e.isLog)

/-- Whether a non-streaming output has its final or its temp path on the file system. -/
def outputExists (fs : FileSystem) (kv : Str × InformationPacket) : Bool :=
  !kv.2.doStream && (fs.fileExists kv.2.GetPath || fs.fileExists kv.2.GetTempPath)

/-- Whether a streaming output lacks its FIFO on the file system. -/
def fifoMissing (fs : FileSystem) (kv : Str × InformationPacket) : Bool :=
  kv.2.doStream && !fs.fileExists kv.2.GetFifoPath

/-- The outputs with a provenance record attached to each of them. -/
def setAuditInfos (ai : AuditInfo) (outs : Targets) : Targets :=
  outs.map (fun kv => (kv.1, kv.2.SetAuditInfo ai))

/-- The provenance events of a run: for each output, the record is attached and then
written. -/
def provEvents (outs : Targets) : List Event :=
  outs.flatMap (fun kv =>
    [Event.setAuditInfo kv.2.GetPath, Event.writeAuditLog kv.2.GetAuditFilePath])

/-- The renames of a commit: for each output that is not streaming, its temp path to its
final path. -/
def renameEvents (outs : Targets) : List Event :=
  (outs.filter (fun kv => !kv.2.doStream)).map
    (fun kv => Event.rename kv.2.GetTempPath kv.2.GetPath)

/-- The provenance loop on the file system as the spec words it: the record is written as
the sidecar `basePath + ".audit.json"` of each output, in order. -/
def writeSidecars (env : Env) (ai : AuditInfo) (outs : Targets) (fs : FileSystem) :
    FileSystem :=
  outs.foldl (fun fs1 kv =>
    FileSystem.write fs1 (kv.2.path ++ ".audit.json".toList) (env.encodeAudit ai)) fs

/-- The commit as the spec words it: for every output that is not streaming, in order, the
temp path `basePath + ".tmp"` is renamed to the final path `basePath`; streaming outputs
are left untouched.  The result is `none` when one of the renames cannot be done. -/
def commitRenames : Targets → FileSystem → Option FileSystem
  | [], fs => some fs
  | kv :: rest, fs =>
    if kv.2.doStream then commitRenames rest fs
    else
      match FileSystem.rename fs (kv.2.path ++ ".tmp".toList) kv.2.path with
      | none => none
      | some fs1 => commitRenames rest fs1

/-- The paths a commit touches: the temp path and the final path of every output that is
not streaming. -/
def commitPaths : Targets → List Str
  | [] => []
  | kv :: rest =>
    if kv.2.doStream then commitPaths rest
    else (kv.2.path ++ ".tmp".toList) :: kv.2.path :: commitPaths rest

/-- An environment for examples: the shell writes the file `/x/out.txt.tmp` and succeeds,
a job submission succeeds, the elapsed time is 7 ms. -/
def exampleEnv : Env :=
  { bash := fun _ fs => (fs.write "/x/out.txt.tmp".toList "data".toList, true),
    kube := fun _ _ _ _ _ fs => some fs,
    elapsedMs := 7,
    encodeAudit := fun ai => ai.Command }

/-- An environment for examples in which the shell command exits nonzero. -/
def failingEnv : Env :=
  { exampleEnv with bash := fun _ fs => (fs, false) }

/-- A task for examples: command `echo hi`, local mode, no custom function. -/
def exampleTask (inTargets outTargets : Targets) : SciTask :=
  { Name := "t".toList, Command := "echo hi".toList, ExecMode := ExecMode.ExecModeLocal,
    InTargets := inTargets, OutTargets := outTargets, Params := [],
    KubeConfigPath := [], Image := [], DataFolder := [], CustomExecute := none }

/-- A task for examples with a custom function, which writes the temp file of the output
`/x/out.txt` and leaves the task as it is. -/
def customTask : SciTask :=
  { exampleTask [] [("o".toList, ⟨"/x/out.txt".toList, false, none⟩)] with
    CustomExecute := some (fun t fs =>
      some (t, fs.write "/x/out.txt.tmp".toList "data".toList)) }

/-! ## The substitution the formatter is specified by -/

/-- The text of a segment in the template. -/
def Seg.text : Seg → Str
  | Seg.lit c => [c]
  | Seg.ph m => m.whole

/-- The text a placeholder stands for: an input's path, or its FIFO path when the input is
streaming; an output's temp path for `o`; an output's FIFO path for `os`; a parameter's
value for `p`. -/
def placeHolderText (inTargets outTargets : Targets) (params : ParamMap) (m : Submatch) : Str :=
  if m.typ = "i".toList then
    match inTargets.lookup m.name with
    | some tgt => if tgt.doStream then tgt.path ++ ".fifo".toList else tgt.path
    | none => []
  else if m.typ = "o".toList then
    match outTargets.lookup m.name with
    | some tgt => tgt.path ++ ".tmp".toList
    | none => []
  else if m.typ = "os".toList then
    match outTargets.lookup m.name with
    | some tgt => tgt.path ++ ".fifo".toList
    | none => []
  else if m.typ = "p".toList then paramValue params m.name
  else []

/-- A segment after substitution: a character outside the placeholders stays, a
placeholder becomes its text. -/
def Seg.subst (val : Submatch → Str) : Seg → Str
  | Seg.lit c => [c]
  | Seg.ph m => val m

/-- Placeholder-wise substitution: every placeholder of the template replaced by its
text, all other characters unchanged. -/
def substitute (val : Submatch → Str) (s : Str) : Str :=
  (scan s).flatMap (Seg.subst val)

/-- The template with only the placeholders whose text is in `done` replaced. -/
def partialSubst (val : Submatch → Str) (done : List Str) (segs : List Seg) : Str :=
  segs.flatMap (fun seg =>
    match seg with
    | Seg.lit c => [c]
    | Seg.ph m => if m.whole ∈ done then val m else m.whole)

/-- A placeholder on which `formatCommand` fails: an `o` or `os` placeholder without its
output, an `i` placeholder without its input or whose input has an empty path, a `p`
placeholder whose parameter is missing or empty. -/
def badPlaceHolder (inTargets outTargets : Targets) (params : ParamMap) (m : Submatch) : Prop :=
  ((m.typ = "o".toList ∨ m.typ = "os".toList) ∧ (outTargets.lookup m.name).isNone = true) ∨
  (m.typ = "i".toList ∧ ((inTargets.lookup m.name).isNone = true ∨
    (inTargets.lookup m.name).map InformationPacket.GetPath = some [])) ∨
  (m.typ = "p".toList ∧ paramValue params m.name = [])

instance (inTargets outTargets : Targets) (params : ParamMap) (m : Submatch) :
    Decidable (badPlaceHolder inTargets outTargets params m) := by
  unfold badPlaceHolder; infer_instance

/-- A placeholder that names a known port, or a parameter with a non-empty value. -/
def namesKnown (inTargets outTargets : Targets) (params : ParamMap) (m : Submatch) : Prop :=
  ((m.typ = "o".toList ∨ m.typ = "os".toList) ∧ (outTargets.lookup m.name).isSome = true) ∨
  (m.typ = "i".toList ∧ (inTargets.lookup m.name).isSome = true) ∨
  (m.typ = "p".toList ∧ paramValue params m.name ≠ [])

instance (inTargets outTargets : Targets) (params : ParamMap) (m : Submatch) :
    Decidable (namesKnown inTargets outTargets params m) := by
  unfold namesKnown; infer_instance

/-- A well-formed match: a known type tag, a non-empty identifier, and the text
`{type:name}`. -/
def Submatch.WF (m : Submatch) : Prop :=
  m.typ ∈ placeHolderTypes ∧ m.name ≠ [] ∧ (∀ c ∈ m.name, nameChar c = true) ∧
  m.whole = '{' :: (m.typ ++ ':' :: (m.name ++ ['}']))

/-- The template contains the placeholder: the text `{type:name}` of a well-formed match
occurs in it. -/
def containsPlaceHolder (cmd : Str) (m : Submatch) : Prop :=
  m.WF ∧ ∃ pre suf, cmd = pre ++ m.whole ++ suf

/-! ## Matching and scanning -/

theorem isPrefixOf_iff {a b : Str} : a.isPrefixOf b = true ↔ a <+: b := by
  exact List.isPrefixOf_iff_prefix

theorem matchType_some {r t : Str} {m : Submatch} (h : matchType r t = some m) :
    m.typ = t ∧ m.name ≠ [] ∧ (∀ c ∈ m.name, nameChar c = true) ∧
    m.whole = '{' :: (t ++ ':' :: (m.name ++ ['}'])) ∧
    ∃ rest, r = t ++ ':' :: (m.name ++ '}' :: rest) := by
  unfold matchType at h
  split at h
  · rename_i hp
    simp only at h
    split at h
    · rename_i hn
      injection h with h
      subst h
      refine ⟨rfl, hn.1, ?_, rfl, ?_⟩
      · intro c hc
        exact (List.mem_takeWhile_imp hc)
      · obtain ⟨r1, rfl⟩ := isPrefixOf_iff.mp hp
        have hd : List.drop (t.length + 1) (t ++ [':'] ++ r1) = r1 := by
          have : (t ++ [':']).length = t.length + 1 := by simp
          rw [← this, List.drop_left]
        rw [hd] at hn ⊢
        have h2 := hn.2
        cases hdw : List.dropWhile nameChar r1 with
        | nil => rw [hdw] at h2; simp at h2
        | cons x rest =>
          rw [hdw] at h2
          simp at h2
          subst h2
          refine ⟨rest, ?_⟩
          have h6 := List.takeWhile_append_dropWhile nameChar r1
          rw [hdw] at h6
          rw [List.append_assoc, List.singleton_append, h6]
    · cases h
  · cases h

theorem matchAt_some {s : Str} {m : Submatch} (h : matchAt s = some m) :
    m.WF ∧ ∃ rest, s = m.whole ++ rest := by
  cases s with
  | nil => cases h
  | cons c r =>
    simp only [matchAt] at h
    split at h
    · rename_i hc
      subst hc
      obtain ⟨t, ht, hm⟩ := List.exists_of_findSome?_eq_some h
      obtain ⟨h1, h2, h3, h4, rest, h5⟩ := matchType_some hm
      subst h1
      refine ⟨⟨ht, h2, h3, h4⟩, rest, ?_⟩
      rw [h4, h5]
      simp
    · cases h

theorem append_cons_inj_of_not_mem {x : Char} :
    ∀ {a b a1 b1 : Str}, a ++ x :: a1 = b ++ x :: b1 → x ∉ a → x ∉ b → a = b ∧ a1 = b1
  | [], [], _, _, h, _, _ => by simpa using h
  | [], y :: b, _, _, h, _, hb => by
    simp only [List.nil_append, List.cons_append, List.cons.injEq] at h
    exact absurd (by rw [h.1]; exact List.mem_cons_self _ _) hb
  | y :: a, [], _, _, h, ha, _ => by
    simp only [List.nil_append, List.cons_append, List.cons.injEq] at h
    exact absurd (by rw [← h.1]; exact List.mem_cons_self _ _) ha
  | y :: a, z :: b, _, _, h, ha, hb => by
    simp only [List.cons_append, List.cons.injEq] at h
    have ih := append_cons_inj_of_not_mem h.2
      (fun hx => ha (List.mem_cons_of_mem _ hx)) (fun hx => hb (List.mem_cons_of_mem _ hx))
    exact ⟨by rw [h.1, ih.1], ih.2⟩

theorem nameChar_ne {c : Char} (h : nameChar c = true) : c ≠ '{' ∧ c ≠ '}' ∧ c ≠ ':' := by
  simp only [nameChar, Bool.and_eq_true, Bool.not_eq_true', beq_eq_false_iff_ne] at h
  exact ⟨h.1.1.1, h.1.1.2, h.1.2⟩

theorem placeHolderTypes_chars {t : Str} (h : t ∈ placeHolderTypes) :
    '{' ∉ t ∧ '}' ∉ t ∧ ':' ∉ t := by
  simp only [placeHolderTypes, List.mem_cons, List.mem_singleton, List.not_mem_nil,
    or_false] at h
  rcases h with rfl | rfl | rfl | rfl <;> decide

/-- The text between the braces of a well-formed match holds no brace. -/
theorem Submatch.WF.body {m : Submatch} (h : m.WF) :
    ∃ body, m.whole = '{' :: (body ++ ['}']) ∧ '{' ∉ body ∧ '}' ∉ body := by
  obtain ⟨ht, _, hn, hw⟩ := h
  obtain ⟨t1, t2, _⟩ := placeHolderTypes_chars ht
  refine ⟨m.typ ++ ':' :: m.name, by rw [hw]; simp, ?_, ?_⟩
  · intro hmem
    rcases List.mem_append.mp hmem with h1 | h1
    · exact t1 h1
    · rcases List.mem_cons.mp h1 with h2 | h2
      · exact absurd h2 (by decide)
      · exact (nameChar_ne (hn _ h2)).1 rfl
  · intro hmem
    rcases List.mem_append.mp hmem with h1 | h1
    · exact t2 h1
    · rcases List.mem_cons.mp h1 with h2 | h2
      · exact absurd h2 (by decide)
      · exact (nameChar_ne (hn _ h2)).2.1 rfl

/-- A well-formed match is determined by its text. -/
theorem Submatch.WF.eq_of_whole {m q : Submatch} (hm : m.WF) (hq : q.WF)
    (h : m.whole = q.whole) : m = q := by
  obtain ⟨mt, _, _, mw⟩ := hm
  obtain ⟨qt, _, _, qw⟩ := hq
  rw [mw, qw] at h
  simp only [List.cons.injEq, true_and] at h
  obtain ⟨h1, h2⟩ := append_cons_inj_of_not_mem h (placeHolderTypes_chars mt).2.2
    (placeHolderTypes_chars qt).2.2
  have h3 : m.name = q.name := List.append_cancel_right h2
  cases m
  cases q
  simp only at h1 h3 mw qw
  subst h1 h3
  rw [mw, qw]

/-- A well-formed match that begins a text starting with another one is that one. -/
theorem Submatch.WF.eq_of_starts {m q : Submatch} (hm : m.WF) (hq : q.WF) {rest : Str}
    (h : q.whole <+: m.whole ++ rest) : q.whole = m.whole := by
  obtain ⟨bm, hbm, _, m2⟩ := hm.body
  obtain ⟨bq, hbq, _, q2⟩ := hq.body
  obtain ⟨t, ht⟩ := h
  rw [hbm, hbq] at ht
  simp only [List.cons_append, List.append_assoc, List.singleton_append, List.cons.injEq,
    true_and, List.nil_append] at ht
  obtain ⟨h1, _⟩ := append_cons_inj_of_not_mem ht q2 m2
  rw [hbm, hbq, h1]

theorem scanFrom_text : ∀ (s : Str) (k : Nat), (scanFrom k s).flatMap Seg.text = s.drop k
  | [], k => by simp [scanFrom]
  | c :: s, k + 1 => by
    rw [scanFrom, List.drop_succ_cons]
    exact scanFrom_text s k
  | c :: s, 0 => by
    rw [scanFrom]
    split
    · rename_i m hm
      obtain ⟨hwf, rest, hrest⟩ := matchAt_some hm
      obtain ⟨body, hb, _, _⟩ := hwf.body
      rw [List.flatMap_cons, scanFrom_text s, List.drop_zero, hrest]
      simp only [Seg.text]
      congr 1
      rw [hb] at hrest ⊢
      simp only [List.cons_append, List.cons.injEq] at hrest
      rw [hrest.2]
      have hl : ('{' :: (body ++ ['}'])).length - 1 = (body ++ ['}']).length := by simp
      rw [hl, List.drop_left]
    · rw [List.flatMap_cons, scanFrom_text s 0]
      simp [Seg.text]

/-- The scanned segments spell the template. -/
theorem scan_text (s : Str) : (scan s).flatMap Seg.text = s := by
  rw [scan, scanFrom_text, List.drop_zero]

theorem scanFrom_wf : ∀ (s : Str) (k : Nat) (m : Submatch), Seg.ph m ∈ scanFrom k s → m.WF
  | [], k, m, h => by simp [scanFrom] at h
  | c :: s, k + 1, m, h => by
    rw [scanFrom] at h
    exact scanFrom_wf s k m h
  | c :: s, 0, m, h => by
    rw [scanFrom] at h
    split at h
    · rename_i m1 hm
      rcases List.mem_cons.mp h with h1 | h1
      · injection h1 with h1
        subst h1
        exact (matchAt_some hm).1
      · exact scanFrom_wf s _ m h1
    · rcases List.mem_cons.mp h with h1 | h1
      · cases h1
      · exact scanFrom_wf s _ m h1

theorem takeWhile_name (name r : Str) (hn : ∀ c ∈ name, nameChar c = true) :
    (name ++ '}' :: r).takeWhile nameChar = name ∧
    (name ++ '}' :: r).dropWhile nameChar = '}' :: r := by
  induction name with
  | nil => exact ⟨rfl, rfl⟩
  | cons c name ih =>
    have hc := hn c (List.mem_cons_self _ _)
    obtain ⟨ih1, ih2⟩ := ih (fun d hd => hn d (List.mem_cons_of_mem _ hd))
    rw [List.cons_append, List.takeWhile_cons, List.dropWhile_cons, hc]
    exact ⟨by rw [if_pos rfl, ih1], by rw [if_pos rfl, ih2]⟩

theorem matchType_self (t name r : Str) (hne : name ≠ [])
    (hn : ∀ c ∈ name, nameChar c = true) :
    matchType (t ++ ':' :: (name ++ '}' :: r)) t
      = some ⟨'{' :: (t ++ ':' :: (name ++ ['}'])), t, name⟩ := by
  have hp : (t ++ [':']).isPrefixOf (t ++ ':' :: (name ++ '}' :: r)) = true := by
    apply isPrefixOf_iff.mpr
    exact ⟨name ++ '}' :: r, by simp⟩
  have hd : List.drop (t.length + 1) (t ++ ':' :: (name ++ '}' :: r)) = name ++ '}' :: r := by
    have h1 : t ++ ':' :: (name ++ '}' :: r) = (t ++ [':']) ++ (name ++ '}' :: r) := by simp
    have h2 : (t ++ [':']).length = t.length + 1 := by simp
    rw [h1, ← h2, List.drop_left]
  obtain ⟨h3, h4⟩ := takeWhile_name name r hn
  unfold matchType
  rw [if_pos hp]
  simp only [hd, h3, h4, List.head?_cons]
  rw [if_pos ⟨hne, trivial⟩]

/-- The pattern matches at the text of a well-formed match, whatever follows. -/
theorem matchAt_whole {q : Submatch} (h : q.WF) (r : Str) : matchAt (q.whole ++ r) = some q := by
  obtain ⟨whole, typ, name⟩ := q
  obtain ⟨ht, hne, hn, hw⟩ := h
  simp only at ht hne hn hw
  subst hw
  have hself := matchType_self typ name r hne hn
  have hrest : typ ++ ':' :: (name ++ ['}']) ++ r = typ ++ ':' :: (name ++ '}' :: r) := by simp
  simp only [List.cons_append, matchAt, if_true, hrest]
  simp only [placeHolderTypes, List.mem_cons, List.mem_singleton, List.not_mem_nil,
    or_false] at ht
  rcases ht with rfl | rfl | rfl | rfl
  · simp only [placeHolderTypes, List.findSome?, hself]
  · have h1 : matchType ("os".toList ++ ':' :: (name ++ '}' :: r)) "o".toList = none := by
      simp [matchType, List.isPrefixOf]
    simp only [placeHolderTypes, List.findSome?, h1, hself]
  · have h1 : matchType ("i".toList ++ ':' :: (name ++ '}' :: r)) "o".toList = none := by
      simp [matchType, List.isPrefixOf]
    have h2 : matchType ("i".toList ++ ':' :: (name ++ '}' :: r)) "os".toList = none := by
      simp [matchType, List.isPrefixOf]
    simp only [placeHolderTypes, List.findSome?, h1, h2, hself]
  · have h1 : matchType ("p".toList ++ ':' :: (name ++ '}' :: r)) "o".toList = none := by
      simp [matchType, List.isPrefixOf]
    have h2 : matchType ("p".toList ++ ':' :: (name ++ '}' :: r)) "os".toList = none := by
      simp [matchType, List.isPrefixOf]
    have h3 : matchType ("p".toList ++ ':' :: (name ++ '}' :: r)) "i".toList = none := by
      simp [matchType, List.isPrefixOf]
    simp only [placeHolderTypes, List.findSome?, h1, h2, h3, hself]

theorem scanFrom_occurs : ∀ (s : Str) (k : Nat) (m : Submatch), Seg.ph m ∈ scanFrom k s →
    ∃ pre suf, s = pre ++ m.whole ++ suf
  | [], k, m, h => by simp [scanFrom] at h
  | c :: s, k + 1, m, h => by
    rw [scanFrom] at h
    obtain ⟨pre, suf, hs⟩ := scanFrom_occurs s k m h
    exact ⟨c :: pre, suf, by rw [hs]; simp⟩
  | c :: s, 0, m, h => by
    rw [scanFrom] at h
    split at h
    · rename_i m1 hm
      rcases List.mem_cons.mp h with h1 | h1
      · injection h1 with h1
        subst h1
        obtain ⟨_, rest, hrest⟩ := matchAt_some hm
        exact ⟨[], rest, by rw [hrest]; simp⟩
      · obtain ⟨pre, suf, hs⟩ := scanFrom_occurs s _ m h1
        exact ⟨c :: pre, suf, by rw [hs]; simp⟩
    · rcases List.mem_cons.mp h with h1 | h1
      · cases h1
      · obtain ⟨pre, suf, hs⟩ := scanFrom_occurs s _ m h1
        exact ⟨c :: pre, suf, by rw [hs]; simp⟩

/-- Every occurrence of a placeholder text is found by the scan: matches cannot overlap,
since the only opening brace of a match is its first character. -/
theorem scanFrom_of_occurs (q : Submatch) (hq : q.WF) (suf : Str) :
    ∀ (pre : Str) (k : Nat), '{' ∉ (pre ++ q.whole ++ suf).take k →
      Seg.ph q ∈ scanFrom k (pre ++ q.whole ++ suf)
  | [], k, hk => by
    obtain ⟨bq, hbq, _, _⟩ := hq.body
    have hm := matchAt_whole hq suf
    rw [List.nil_append] at hk ⊢
    rw [hbq] at hk hm ⊢
    rw [List.cons_append] at hk hm ⊢
    cases k with
    | succ k =>
      rw [List.take_succ_cons] at hk
      exact absurd (List.mem_cons_self _ _) hk
    | zero =>
      rw [scanFrom, hm]
      exact List.mem_cons_self _ _
  | c :: pre, k + 1, hk => by
    rw [List.cons_append, List.cons_append] at hk ⊢
    rw [List.take_succ_cons] at hk
    rw [scanFrom]
    exact scanFrom_of_occurs q hq suf pre k (fun h => hk (List.mem_cons_of_mem _ h))
  | c :: pre, 0, _ => by
    rw [List.cons_append, List.cons_append, scanFrom]
    split
    · rename_i m hm
      apply List.mem_cons_of_mem
      apply scanFrom_of_occurs q hq suf pre
      obtain ⟨hwf, rest, hrest⟩ := matchAt_some hm
      obtain ⟨bm, hbm, m1, _⟩ := hwf.body
      rw [hbm] at hrest ⊢
      simp only [List.cons_append, List.cons.injEq] at hrest
      rw [hrest.2]
      have hl : ('{' :: (bm ++ ['}'])).length - 1 = (bm ++ ['}']).length := by simp
      rw [hl, List.take_left]
      intro h
      rcases List.mem_append.mp h with h1 | h1
      · exact m1 h1
      · simp at h1
    · apply List.mem_cons_of_mem
      apply scanFrom_of_occurs q hq suf pre
      simp

theorem mem_findAll {s : Str} {m : Submatch} : m ∈ findAll s ↔ Seg.ph m ∈ scan s := by
  unfold findAll
  rw [List.mem_filterMap]
  constructor
  · rintro ⟨seg, hseg, hm⟩
    cases seg with
    | lit c => cases hm
    | ph q =>
      simp only [Seg.match?, Option.some.injEq] at hm
      subst hm
      exact hseg
  · intro h
    exact ⟨Seg.ph m, h, rfl⟩

/-- Every match found in a template is well formed. -/
theorem findAll_wf {s : Str} {m : Submatch} (h : m ∈ findAll s) : m.WF :=
  scanFrom_wf s 0 m (mem_findAll.mp h)

/-- The matches found in a template are the placeholders it contains. -/
theorem mem_findAll_iff_contains {s : Str} {m : Submatch} :
    m ∈ findAll s ↔ containsPlaceHolder s m := by
  constructor
  · intro h
    exact ⟨findAll_wf h, scanFrom_occurs s 0 m (mem_findAll.mp h)⟩
  · rintro ⟨hwf, pre, suf, rfl⟩
    exact mem_findAll.mpr (scanFrom_of_occurs m hwf suf pre 0 (by simp))

/-! ## Replacement -/

theorem replaceFrom_skip (old new : Str) :
    ∀ (u r : Str), replaceFrom old new u.length (u ++ r) = replaceFrom old new 0 r
  | [], r => rfl
  | c :: u, r => by
    rw [List.length_cons, List.cons_append, replaceFrom]
    · exact replaceFrom_skip old new u r

theorem replaceFrom_of_match (old new : Str) (hne : old ≠ []) (r : Str) :
    replaceFrom old new 0 (old ++ r) = new ++ replaceFrom old new 0 r := by
  cases old with
  | nil => exact absurd rfl hne
  | cons c o =>
    rw [List.cons_append, replaceFrom]
    have hp : List.isPrefixOf (c :: o) (c :: (o ++ r)) = true := by
      rw [← List.cons_append]
      exact isPrefixOf_iff.mpr (List.prefix_append _ _)
    rw [if_pos hp]
    simp only [List.length_cons, Nat.add_sub_cancel]
    rw [replaceFrom_skip]

theorem replaceFrom_cons_of_no_match (old new : Str) (c : Char) (s : Str)
    (h : ¬ old <+: c :: s) :
    replaceFrom old new 0 (c :: s) = c :: replaceFrom old new 0 s := by
  rw [replaceFrom]
  have hp : ¬ List.isPrefixOf old (c :: s) = true := fun hp =>
    h (isPrefixOf_iff.mp hp)
  rw [if_neg hp]

/-- Text without an opening brace is copied when the replaced text starts with one. -/
theorem replaceFrom_append_of_not_mem (o new : Str) :
    ∀ (u r : Str), '{' ∉ u →
      replaceFrom ('{' :: o) new 0 (u ++ r) = u ++ replaceFrom ('{' :: o) new 0 r
  | [], r, _ => rfl
  | c :: u, r, hu => by
    have hc : c ≠ '{' := fun hc => hu (by rw [hc]; exact List.mem_cons_self _ _)
    have hnp : ¬ ('{' :: o) <+: c :: (u ++ r) := by
      rintro ⟨t, ht⟩
      simp only [List.cons_append, List.cons.injEq] at ht
      exact hc ht.1.symm
    rw [List.cons_append, replaceFrom_cons_of_no_match _ _ _ _ hnp,
      replaceFrom_append_of_not_mem o new u r (fun hx => hu (List.mem_cons_of_mem _ hx)),
      List.cons_append]

theorem partialSubst_lit (val : Submatch → Str) (done : List Str) (c : Char)
    (segs : List Seg) :
    partialSubst val done (Seg.lit c :: segs) = [c] ++ partialSubst val done segs := by
  simp [partialSubst]

theorem partialSubst_ph (val : Submatch → Str) (done : List Str) (m : Submatch)
    (segs : List Seg) :
    partialSubst val done (Seg.ph m :: segs)
      = (if m.whole ∈ done then val m else m.whole) ++ partialSubst val done segs := by
  simp [partialSubst]

theorem subst_lit (val : Submatch → Str) (c : Char) (segs : List Seg) :
    (Seg.lit c :: segs).flatMap (Seg.subst val) = c :: segs.flatMap (Seg.subst val) := by
  rw [List.flatMap_cons]
  rfl

theorem subst_ph (val : Submatch → Str) (m : Submatch) (segs : List Seg) :
    (Seg.ph m :: segs).flatMap (Seg.subst val) = val m ++ segs.flatMap (Seg.subst val) := by
  rw [List.flatMap_cons]
  rfl

/-- Where no occurrence of the replaced text starts, the text is copied. -/
theorem replaceFrom_append_of_no_match (old new : Str) (x : Str) :
    ∀ (u : Str), (∀ u1 u2, u = u1 ++ u2 → u2 ≠ [] → ¬ old <+: u2 ++ x) →
      replaceFrom old new 0 (u ++ x) = u ++ replaceFrom old new 0 x
  | [], _ => rfl
  | c :: u, h => by
    have hnp : ¬ old <+: c :: (u ++ x) :=
      h [] (c :: u) rfl (List.cons_ne_nil _ _)
    rw [List.cons_append, replaceFrom_cons_of_no_match _ _ _ _ hnp,
      replaceFrom_append_of_no_match old new x u
        (fun u1 u2 hu hne => h (c :: u1) u2 (by rw [hu]; rfl) hne),
      List.cons_append]

/-- A text that ends with its only closing brace and begins `w ++ x` begins `w ++ y` as
well, when this holds for the texts that begin `x`. -/
theorem starts_append (x y : Str)
    (hxy : ∀ body : Str, '{' ∉ body → body ++ ['}'] <+: x → body ++ ['}'] <+: y) :
    ∀ (w body : Str), '{' ∉ body → body ++ ['}'] <+: w ++ x → body ++ ['}'] <+: w ++ y
  | [], body, ho, h => hxy body ho h
  | c :: w, [], _, h => by
    rw [List.nil_append, List.cons_append, List.cons_prefix_cons] at h ⊢
    exact ⟨h.1, List.nil_prefix⟩
  | c :: w, d :: body, ho, h => by
    rw [List.cons_append, List.cons_append, List.cons_prefix_cons] at h ⊢
    exact ⟨h.1, starts_append x y hxy w body
      (fun hx => ho (List.mem_cons_of_mem _ hx)) h.2⟩

/-- A brace-free text followed by a closing brace that begins the partly substituted
template begins the fully substituted template: it cannot reach into a placeholder that
is not yet replaced, which starts with an opening brace. -/
theorem starts_subst (val : Submatch → Str) (done : List Str) :
    ∀ (rest : List Seg), (∀ m, Seg.ph m ∈ rest → m.WF) → ∀ (body : Str), '{' ∉ body →
      body ++ ['}'] <+: partialSubst val done rest →
      body ++ ['}'] <+: rest.flatMap (Seg.subst val)
  | [], _, body, _, h => by
    have h1 : body ++ ['}'] = [] := List.prefix_nil.mp h
    exact absurd h1 (by simp)
  | Seg.lit c :: r, hwf, body, ho, h => by
    rw [partialSubst_lit] at h
    rw [subst_lit]
    exact starts_append _ _
      (starts_subst val done r (fun m hm => hwf m (List.mem_cons_of_mem _ hm)))
      [c] body ho h
  | Seg.ph m :: r, hwf, body, ho, h => by
    rw [partialSubst_ph] at h
    rw [subst_ph]
    by_cases hd : m.whole ∈ done
    · rw [if_pos hd] at h
      exact starts_append _ _
        (starts_subst val done r (fun m hm => hwf m (List.mem_cons_of_mem _ hm)))
        (val m) body ho h
    · rw [if_neg hd] at h
      obtain ⟨bm, hbm, _, _⟩ := (hwf m (List.mem_cons_self _ _)).body
      rw [hbm, List.cons_append] at h
      exfalso
      cases body with
      | nil =>
        rw [List.nil_append, List.cons_prefix_cons] at h
        exact absurd h.1 (by decide)
      | cons d body =>
        rw [List.cons_append, List.cons_prefix_cons] at h
        exact ho (by rw [h.1]; exact List.mem_cons_self _ _)

/-- One replacement step on a partly substituted template replaces exactly the
placeholders with the replaced text, when that text does not occur in the fully
substituted template. -/
theorem replaceFrom_partialSubst (val : Submatch → Str) (q : Submatch) (hq : q.WF)
    (done : List Str) :
    ∀ (segs : List Seg), (∀ m, Seg.ph m ∈ segs → m.WF) →
      ¬ q.whole <:+: segs.flatMap (Seg.subst val) →
      replaceFrom q.whole (val q) 0 (partialSubst val done segs)
        = partialSubst val (q.whole :: done) segs
  | [], _, _ => rfl
  | Seg.lit c :: segs, hph, hinf => by
    obtain ⟨bq, hbq, q1, _⟩ := hq.body
    have hwf : ∀ m, Seg.ph m ∈ segs → m.WF := fun m hm => hph m (List.mem_cons_of_mem _ hm)
    rw [subst_lit] at hinf
    have hinf1 : ¬ q.whole <:+: segs.flatMap (Seg.subst val) :=
      fun h => hinf (List.IsInfix.trans h (List.suffix_cons _ _).isInfix)
    have ih := replaceFrom_partialSubst val q hq done segs hwf hinf1
    have hnp : ¬ q.whole <+: c :: partialSubst val done segs := by
      intro hp
      apply hinf
      apply List.IsPrefix.isInfix
      rw [hbq, List.cons_prefix_cons] at hp ⊢
      exact ⟨hp.1, starts_subst val done segs hwf bq q1 hp.2⟩
    rw [partialSubst_lit, partialSubst_lit, List.singleton_append,
      replaceFrom_cons_of_no_match _ _ _ _ hnp, ih, List.singleton_append]
  | Seg.ph m :: segs, hph, hinf => by
    have hwf : ∀ m, Seg.ph m ∈ segs → m.WF := fun m hm => hph m (List.mem_cons_of_mem _ hm)
    rw [subst_ph] at hinf
    have hinf1 : ¬ q.whole <:+: segs.flatMap (Seg.subst val) :=
      fun h => hinf (List.IsInfix.trans h (List.suffix_append _ _).isInfix)
    have ih := replaceFrom_partialSubst val q hq done segs hwf hinf1
    have hm := hph m (List.mem_cons_self _ _)
    obtain ⟨bq, hbq, q1, _⟩ := hq.body
    obtain ⟨bm, hbm, m1, _⟩ := hm.body
    rw [partialSubst_ph, partialSubst_ph]
    by_cases hd : m.whole ∈ done
    · have hd2 : m.whole ∈ q.whole :: done := List.mem_cons_of_mem _ hd
      rw [if_pos hd, if_pos hd2]
      rw [replaceFrom_append_of_no_match _ _ _ _ ?_, ih]
      intro u1 u2 hu hne hp
      apply hinf
      have hp2 : q.whole <+: u2 ++ segs.flatMap (Seg.subst val) := by
        cases u2 with
        | nil => exact absurd rfl hne
        | cons d u2 =>
          rw [hbq, List.cons_append, List.cons_prefix_cons] at hp ⊢
          exact ⟨hp.1, starts_append _ _ (starts_subst val done segs hwf) u2 bq q1 hp.2⟩
      obtain ⟨t, ht⟩ := hp2
      exact ⟨u1, t, by rw [hu, List.append_assoc, List.append_assoc, ht]⟩
    · rw [if_neg hd]
      by_cases he : m.whole = q.whole
      · have hmq : m = q := hm.eq_of_whole hq he
        subst hmq
        rw [if_pos (List.mem_cons_self _ _),
          replaceFrom_of_match _ _ (by rw [hbm]; exact List.cons_ne_nil _ _), ih]
      · have hd2 : m.whole ∉ q.whole :: done := by
          intro h
          rcases List.mem_cons.mp h with h1 | h1
          · exact he h1
          · exact hd h1
        rw [if_neg hd2]
        have hnp : ¬ q.whole <+: m.whole ++ partialSubst val done segs :=
          fun h => he (hm.eq_of_starts hq h).symm
        have hb1 : '{' ∉ bm ++ ['}'] := by
          intro h
          rcases List.mem_append.mp h with h1 | h1
          · exact m1 h1
          · simp at h1
        rw [hbm] at hnp ⊢
        rw [List.cons_append] at hnp ⊢
        rw [replaceFrom_cons_of_no_match _ _ _ _ hnp]
        rw [hbq] at ih ⊢
        rw [replaceFrom_append_of_not_mem _ _ _ _ hb1, ih, List.cons_append]

/-! ## The loop of formatCommand -/

/-- On a placeholder that is not bad the loop body yields the placeholder's text,
whatever the command rewritten so far. -/
theorem placeHolderValue_ok (inTargets outTargets : Targets) (params : ParamMap) (cmd : Str)
    (m : Submatch) (ht : m.typ ∈ placeHolderTypes)
    (hgood : ¬ badPlaceHolder inTargets outTargets params m) :
    placeHolderValue inTargets outTargets params cmd m
      = Except.ok (placeHolderText inTargets outTargets params m) := by
  obtain ⟨whole, typ, name⟩ := m
  simp only [placeHolderTypes, List.mem_cons, List.mem_singleton, List.not_mem_nil,
    or_false] at ht
  unfold badPlaceHolder at hgood
  unfold placeHolderValue placeHolderPath placeHolderText Check
  simp only at hgood ⊢
  generalize List.lookup name outTargets = lo at hgood ⊢
  generalize List.lookup name inTargets = li at hgood ⊢
  generalize paramValue params name = pv at hgood ⊢
  rcases ht with rfl | rfl | rfl | rfl
  · cases lo with
    | none => simp at hgood
    | some tgt => simp [InformationPacket.GetTempPath]
  · cases lo with
    | none => simp at hgood
    | some tgt => simp [InformationPacket.GetFifoPath]
  · cases li with
    | none => simp at hgood
    | some tgt =>
      simp [InformationPacket.GetPath] at hgood
      by_cases hs : tgt.doStream = true
      · simp [InformationPacket.GetFifoPath, InformationPacket.GetPath, hgood, hs]
      · simp [InformationPacket.GetFifoPath, InformationPacket.GetPath, hgood, hs]
  · simp at hgood
    simp [hgood]

/-- On a bad placeholder the loop body fails, with a message that ends with the
placeholder's name and the command rewritten so far. -/
theorem placeHolderValue_error (inTargets outTargets : Targets) (params : ParamMap)
    (cmd : Str) (m : Submatch) (ht : m.typ ∈ placeHolderTypes)
    (hbad : badPlaceHolder inTargets outTargets params m) :
    ∃ head, placeHolderValue inTargets outTargets params cmd m
      = Except.error (head ++ m.name ++ "' for command '".toList ++ cmd ++ "'".toList) := by
  obtain ⟨whole, typ, name⟩ := m
  simp only [placeHolderTypes, List.mem_cons, List.mem_singleton, List.not_mem_nil,
    or_false] at ht
  unfold badPlaceHolder at hbad
  unfold placeHolderValue placeHolderPath Check
  simp only at hbad ⊢
  generalize List.lookup name outTargets = lo at hbad ⊢
  generalize List.lookup name inTargets = li at hbad ⊢
  generalize paramValue params name = pv at hbad ⊢
  rcases ht with rfl | rfl | rfl | rfl
  · cases lo with
    | none => exact ⟨"Missing outpath for outport '".toList, by simp⟩
    | some tgt => simp at hbad
  · cases lo with
    | none => exact ⟨"Missing outpath for outport '".toList, by simp⟩
    | some tgt => simp at hbad
  · cases li with
    | none => exact ⟨"Missing intarget for inport '".toList, by simp⟩
    | some tgt =>
      simp at hbad
      exact ⟨"Missing inpath for inport '".toList, by simp [hbad]⟩
  · simp at hbad
    exact ⟨"Missing param value param '".toList, by simp [hbad]⟩

theorem formatLoop_ok_of_good (inTargets outTargets : Targets) (params : ParamMap) :
    ∀ (ms : List Submatch) (cmd : Str),
      (∀ m ∈ ms, m.typ ∈ placeHolderTypes ∧ ¬ badPlaceHolder inTargets outTargets params m) →
      ∃ c, formatLoop inTargets outTargets params cmd ms = Except.ok c
  | [], cmd, _ => ⟨cmd, rfl⟩
  | m :: ms, cmd, h => by
    obtain ⟨ht, hg⟩ := h m (List.mem_cons_self _ _)
    rw [formatLoop, placeHolderValue_ok inTargets outTargets params cmd m ht hg]
    exact formatLoop_ok_of_good inTargets outTargets params ms _
      (fun q hq => h q (List.mem_cons_of_mem _ hq))

theorem formatLoop_error_of_bad (inTargets outTargets : Targets) (params : ParamMap) :
    ∀ (ms : List Submatch) (cmd : Str), (∀ m ∈ ms, m.typ ∈ placeHolderTypes) →
      (∃ m ∈ ms, badPlaceHolder inTargets outTargets params m) →
      ∃ e, formatLoop inTargets outTargets params cmd ms = Except.error e
  | [], _, _, h => by
    obtain ⟨m, hm, _⟩ := h
    cases hm
  | m :: ms, cmd, ht, h => by
    by_cases hb : badPlaceHolder inTargets outTargets params m
    · obtain ⟨head, hv⟩ := placeHolderValue_error inTargets outTargets params cmd m
        (ht m (List.mem_cons_self _ _)) hb
      rw [formatLoop, hv]
      exact ⟨_, rfl⟩
    · rw [formatLoop, placeHolderValue_ok inTargets outTargets params cmd m
        (ht m (List.mem_cons_self _ _)) hb]
      apply formatLoop_error_of_bad inTargets outTargets params ms _
        (fun q hq => ht q (List.mem_cons_of_mem _ hq))
      obtain ⟨q, hq, hqb⟩ := h
      rcases List.mem_cons.mp hq with h1 | h1
      · subst h1
        exact absurd hqb hb
      · exact ⟨q, h1, hqb⟩

/-- A failing loop fails at its first bad placeholder, on the command as the placeholders
before it have rewritten it. -/
theorem formatLoop_error_split (inTargets outTargets : Targets) (params : ParamMap) :
    ∀ (ms : List Submatch) (cmd e : Str), (∀ m ∈ ms, m.typ ∈ placeHolderTypes) →
      formatLoop inTargets outTargets params cmd ms = Except.error e →
      ∃ ms1 m ms2 cmd1, ms = ms1 ++ m :: ms2 ∧
        (∀ q ∈ ms1, ¬ badPlaceHolder inTargets outTargets params q) ∧
        badPlaceHolder inTargets outTargets params m ∧
        formatLoop inTargets outTargets params cmd ms1 = Except.ok cmd1 ∧
        placeHolderValue inTargets outTargets params cmd1 m = Except.error e
  | [], _, _, _, h => by cases h
  | m :: ms, cmd, e, ht, h => by
    by_cases hb : badPlaceHolder inTargets outTargets params m
    · obtain ⟨head, hv⟩ := placeHolderValue_error inTargets outTargets params cmd m
        (ht m (List.mem_cons_self _ _)) hb
      rw [formatLoop, hv] at h
      simp only at h
      refine ⟨[], m, ms, cmd, rfl, ?_, hb, rfl, ?_⟩
      · intro q hq
        cases hq
      · rw [hv, h]
    · have hv := placeHolderValue_ok inTargets outTargets params cmd m
        (ht m (List.mem_cons_self _ _)) hb
      rw [formatLoop, hv] at h
      obtain ⟨ms1, q, ms2, cmd1, h1, h2, h3, h4, h5⟩ :=
        formatLoop_error_split inTargets outTargets params ms _ e
          (fun q hq => ht q (List.mem_cons_of_mem _ hq)) h
      refine ⟨m :: ms1, q, ms2, cmd1, by rw [h1]; rfl, ?_, h3, ?_, h5⟩
      · intro r hr
        rcases List.mem_cons.mp hr with h6 | h6
        · subst h6
          exact hb
        · exact h2 r h6
      · rw [formatLoop, hv]
        exact h4

/-- The loop on a partly substituted template: each step substitutes the placeholders
with the text of the current match. -/
theorem formatLoop_partialSubst (inTargets outTargets : Targets) (params : ParamMap)
    (segs : List Seg) (hph : ∀ m, Seg.ph m ∈ segs → m.WF) :
    ∀ (ms : List Submatch) (done : List Str),
      (∀ m ∈ ms, Seg.ph m ∈ segs ∧ ¬ badPlaceHolder inTargets outTargets params m ∧
        ¬ m.whole <:+: segs.flatMap (Seg.subst (placeHolderText inTargets outTargets params))) →
      formatLoop inTargets outTargets params
          (partialSubst (placeHolderText inTargets outTargets params) done segs) ms
        = Except.ok (partialSubst (placeHolderText inTargets outTargets params)
            ((ms.map Submatch.whole).reverse ++ done) segs)
  | [], done, _ => rfl
  | m :: ms, done, h => by
    obtain ⟨hseg, hg, hinf⟩ := h m (List.mem_cons_self _ _)
    have hwf := hph m hseg
    obtain ⟨body, hb, _, _⟩ := hwf.body
    have hne : m.whole ≠ [] := by rw [hb]; exact List.cons_ne_nil _ _
    rw [formatLoop, placeHolderValue_ok inTargets outTargets params _ m hwf.1 hg]
    simp only [strReplace, if_neg hne]
    rw [replaceFrom_partialSubst _ m hwf done segs hph hinf,
      formatLoop_partialSubst inTargets outTargets params segs hph ms (m.whole :: done)
        (fun q hq => h q (List.mem_cons_of_mem _ hq))]
    simp

theorem partialSubst_nil (val : Submatch → Str) :
    ∀ (segs : List Seg), partialSubst val [] segs = segs.flatMap Seg.text
  | [] => rfl
  | Seg.lit c :: segs => by
    rw [partialSubst_lit, partialSubst_nil val segs, List.flatMap_cons]
    rfl
  | Seg.ph m :: segs => by
    rw [partialSubst_ph, partialSubst_nil val segs, List.flatMap_cons,
      if_neg (List.not_mem_nil _)]
    rfl

theorem partialSubst_all (val : Submatch → Str) (done : List Str) :
    ∀ (segs : List Seg), (∀ m, Seg.ph m ∈ segs → m.whole ∈ done) →
      partialSubst val done segs = segs.flatMap (Seg.subst val)
  | [], _ => rfl
  | Seg.lit c :: segs, h => by
    rw [partialSubst_lit, partialSubst_all val done segs
      (fun m hm => h m (List.mem_cons_of_mem _ hm)), subst_lit]
    rfl
  | Seg.ph m :: segs, h => by
    rw [partialSubst_ph, partialSubst_all val done segs
      (fun m hm => h m (List.mem_cons_of_mem _ hm)), subst_ph,
      if_pos (h m (List.mem_cons_self _ _))]

/-- A text without any placeholder contains the text of no placeholder of a template. -/
theorem not_infix_of_findAll_nil (cmd res : Str) (h : findAll res = []) :
    ∀ m ∈ findAll cmd, ¬ m.whole <:+: res := by
  intro m hm hinf
  obtain ⟨pre, suf, hres⟩ := hinf
  have hc : containsPlaceHolder res m := ⟨findAll_wf hm, pre, suf, hres.symm⟩
  have hmem := mem_findAll_iff_contains.mpr hc
  rw [h] at hmem
  cases hmem

/-! ## The command formatter: the claims -/

/-- C1, amended.  When no placeholder of the template is bad (each names a known output, an
input with a non-empty path, or a parameter with a non-empty value) and the placeholder-wise
substitution of the template contains the text of none of the template's placeholders
(as it does when it contains no placeholder text at all), `formatCommand` returns that
substitution: `{i:n}` becomes the input's path, or its FIFO path when it is streaming,
`{o:n}` the output's temp path, `{os:n}` the output's FIFO path, `{p:n}` the parameter's
value, all other text is unchanged; and when the prepend string is not empty, the prepend
string and one space come in front of the whole line. -/
theorem formatCommand_eq_substitute (cmd : Str) (inTargets outTargets : Targets)
    (params : ParamMap) (prepend : Str)
    (hgood : ∀ m ∈ findAll cmd, ¬ badPlaceHolder inTargets outTargets params m)
    (hres : ∀ m ∈ findAll cmd,
      ¬ m.whole <:+: substitute (placeHolderText inTargets outTargets params) cmd) :
    formatCommand cmd inTargets outTargets params prepend
      = Except.ok (if prepend = []
          then substitute (placeHolderText inTargets outTargets params) cmd
          else prepend ++ [' '] ++
            substitute (placeHolderText inTargets outTargets params) cmd) := by
  have hloop := formatLoop_partialSubst inTargets outTargets params (scan cmd)
    (fun m hm => scanFrom_wf cmd 0 m hm)
    (findAll cmd) [] (fun m hm => ⟨mem_findAll.mp hm, hgood m hm, hres m hm⟩)
  rw [partialSubst_nil, scan_text] at hloop
  rw [formatCommand, hloop]
  simp only
  rw [partialSubst_all]
  · unfold addPrepend substitute
    by_cases hp : prepend = []
    · rw [if_pos hp, if_neg (not_not.mpr hp)]
    · rw [if_neg hp, if_pos hp]
      simp
  · intro m hm
    rw [List.append_nil, List.mem_reverse, List.mem_map]
    exact ⟨m, mem_findAll.mpr hm, rfl⟩

/-- C1, amended, on the example of the spec, `{i:a}{o:b}{p:c}` with a = /x/in.txt,
b = /x/out.txt, c = 5, and on a template with a placeholder inside braces of its own, a
streaming input and a prepend string: `awk {print {p:col}} {i:a} > {o:b}` with col = 2,
after `srun`. -/
theorem formatCommand_eq_substitute_witness :
    ((∀ m ∈ findAll "{i:a}{o:b}{p:c}".toList,
        ¬ badPlaceHolder [("a".toList, ⟨"/x/in.txt".toList, false, none⟩)]
          [("b".toList, ⟨"/x/out.txt".toList, false, none⟩)] [("c".toList, "5".toList)] m) ∧
      (∀ m ∈ findAll "{i:a}{o:b}{p:c}".toList,
        ¬ m.whole <:+: substitute
          (placeHolderText [("a".toList, ⟨"/x/in.txt".toList, false, none⟩)]
            [("b".toList, ⟨"/x/out.txt".toList, false, none⟩)] [("c".toList, "5".toList)])
          "{i:a}{o:b}{p:c}".toList) ∧
      formatCommand "{i:a}{o:b}{p:c}".toList
          [("a".toList, ⟨"/x/in.txt".toList, false, none⟩)]
          [("b".toList, ⟨"/x/out.txt".toList, false, none⟩)] [("c".toList, "5".toList)] []
        = Except.ok "/x/in.txt/x/out.txt.tmp5".toList) ∧
    ((∀ m ∈ findAll "awk {print {p:col}} {i:a} > {o:b}".toList,
        ¬ badPlaceHolder [("a".toList, ⟨"/x/in.txt".toList, true, none⟩)]
          [("b".toList, ⟨"/x/out.txt".toList, false, none⟩)]
          [("col".toList, "2".toList)] m) ∧
      (∀ m ∈ findAll "awk {print {p:col}} {i:a} > {o:b}".toList,
        ¬ m.whole <:+: substitute
          (placeHolderText [("a".toList, ⟨"/x/in.txt".toList, true, none⟩)]
            [("b".toList, ⟨"/x/out.txt".toList, false, none⟩)]
            [("col".toList, "2".toList)])
          "awk {print {p:col}} {i:a} > {o:b}".toList) ∧
      formatCommand "awk {print {p:col}} {i:a} > {o:b}".toList
          [("a".toList, ⟨"/x/in.txt".toList, true, none⟩)]
          [("b".toList, ⟨"/x/out.txt".toList, false, none⟩)]
          [("col".toList, "2".toList)] "srun".toList
        = Except.ok "srun awk {print 2} /x/in.txt.fifo > /x/out.txt.tmp".toList) :=
  ⟨⟨by decide, by decide,
      (formatCommand_eq_substitute _ _ _ _ _ (by decide) (by decide)).trans (by decide)⟩,
    ⟨by decide, by decide,
      (formatCommand_eq_substitute _ _ _ _ _ (by decide) (by decide)).trans (by decide)⟩⟩

/-- The two results the spec lists for `{i:a}{o:b}{p:c}`, with a file input and with the
input marked streaming, and the result on a template with braces of its own. -/
theorem formatCommand_spec_examples :
    formatCommand "{i:a}{o:b}{p:c}".toList
        [("a".toList, ⟨"/x/in.txt".toList, false, none⟩)]
        [("b".toList, ⟨"/x/out.txt".toList, false, none⟩)] [("c".toList, "5".toList)] []
      = Except.ok "/x/in.txt/x/out.txt.tmp5".toList ∧
    formatCommand "{i:a}{o:b}{p:c}".toList
        [("a".toList, ⟨"/x/in.txt".toList, true, none⟩)]
        [("b".toList, ⟨"/x/out.txt".toList, false, none⟩)] [("c".toList, "5".toList)] []
      = Except.ok "/x/in.txt.fifo/x/out.txt.tmp5".toList ∧
    formatCommand "awk {print} {i:a} > {o:b}".toList
        [("a".toList, ⟨"/x/in.txt".toList, true, none⟩)]
        [("b".toList, ⟨"/x/out.txt".toList, false, none⟩)] [] "srun".toList
      = Except.ok "srun awk {print} /x/in.txt.fifo > /x/out.txt.tmp".toList := by
  refine ⟨?_, ?_, ?_⟩ <;> decide

/-- C1 as stated fails, in three ways; in each, every placeholder names a known port or a
non-empty parameter and no substituted text holds a placeholder.  On `{o{p:c}b}{o:b}` with
c = ":" and output b = /x/out.txt, the value ":" completes the text `{o:b}` with the braces
around it, the next replacement rewrites it, and the result differs from the
placeholder-wise substitution.  On `{p:x}o:b}{o:b}` with x = "{" the value brings the
opening brace and the same happens.  On `{i:a}` with a known input a whose path is empty,
`formatCommand` fails. -/
theorem formatCommand_ne_substitute :
    ((∀ m ∈ findAll "{o{p:c}b}{o:b}".toList,
        namesKnown [] [("b".toList, ⟨"/x/out.txt".toList, false, none⟩)]
          [("c".toList, ":".toList)] m) ∧
      (∀ m ∈ findAll "{o{p:c}b}{o:b}".toList,
        findAll (placeHolderText [] [("b".toList, ⟨"/x/out.txt".toList, false, none⟩)]
          [("c".toList, ":".toList)] m) = []) ∧
      formatCommand "{o{p:c}b}{o:b}".toList []
          [("b".toList, ⟨"/x/out.txt".toList, false, none⟩)] [("c".toList, ":".toList)] []
        = Except.ok "/x/out.txt.tmp/x/out.txt.tmp".toList ∧
      substitute (placeHolderText [] [("b".toList, ⟨"/x/out.txt".toList, false, none⟩)]
          [("c".toList, ":".toList)]) "{o{p:c}b}{o:b}".toList
        = "{o:b}/x/out.txt.tmp".toList) ∧
    ((∀ m ∈ findAll "{p:x}o:b\x7d{o:b}".toList,
        namesKnown [] [("b".toList, ⟨"/x/out.txt".toList, false, none⟩)]
          [("x".toList, "\x7b".toList)] m) ∧
      (∀ m ∈ findAll "{p:x}o:b\x7d{o:b}".toList,
        findAll (placeHolderText [] [("b".toList, ⟨"/x/out.txt".toList, false, none⟩)]
          [("x".toList, "\x7b".toList)] m) = []) ∧
      formatCommand "{p:x}o:b\x7d{o:b}".toList []
          [("b".toList, ⟨"/x/out.txt".toList, false, none⟩)] [("x".toList, "\x7b".toList)] []
        = Except.ok "/x/out.txt.tmp/x/out.txt.tmp".toList ∧
      substitute (placeHolderText [] [("b".toList, ⟨"/x/out.txt".toList, false, none⟩)]
          [("x".toList, "\x7b".toList)]) "{p:x}o:b\x7d{o:b}".toList
        = "{o:b}/x/out.txt.tmp".toList) ∧
    ((∀ m ∈ findAll "{i:a}".toList,
        namesKnown [("a".toList, ⟨[], false, none⟩)] [] [] m) ∧
      (∀ m ∈ findAll "{i:a}".toList,
        findAll (placeHolderText [("a".toList, ⟨[], false, none⟩)] [] [] m) = []) ∧
      formatCommand "{i:a}".toList [("a".toList, ⟨[], false, none⟩)] [] [] []
        = Except.error "Missing inpath for inport 'a' for command '{i:a}'".toList) := by
  refine ⟨⟨?_, ?_, ?_, ?_⟩, ⟨?_, ?_, ?_, ?_⟩, ?_, ?_, ?_⟩ <;> decide

/-- C2.  `formatCommand` fails exactly when the template contains a bad placeholder: an
`{o:n}` or `{os:n}` without output n, an `{i:n}` without input n or whose input has an empty
path, a `{p:n}` whose parameter is missing or empty; and `NewSciTask`, which formats the
command before it returns, then returns no task, so that nothing can be executed. -/
theorem formatCommand_error_iff (cmd : Str) (inTargets outTargets : Targets)
    (params : ParamMap) (prepend name : Str) (outPathFuncs : List (Str × (TaskData → Str)))
    (outPortsDoStream : List (Str × Bool)) (execMode : ExecMode) :
    ((∃ e, formatCommand cmd inTargets outTargets params prepend = Except.error e) ↔
      ∃ m, containsPlaceHolder cmd m ∧ badPlaceHolder inTargets outTargets params m) ∧
    ((∃ e, NewSciTask name cmd inTargets outPathFuncs outPortsDoStream params prepend execMode
        = Except.error e) ↔
      ∃ m, containsPlaceHolder cmd m ∧ badPlaceHolder inTargets
        (newOutTargets (newTaskData name inTargets params execMode) outPathFuncs
          outPortsDoStream) params m) := by
  have key : ∀ outs : Targets,
      (∃ e, formatCommand cmd inTargets outs params prepend = Except.error e) ↔
        ∃ m, containsPlaceHolder cmd m ∧ badPlaceHolder inTargets outs params m := by
    intro outs
    constructor
    · rintro ⟨e, he⟩
      by_contra hno
      obtain ⟨c, hc⟩ := formatLoop_ok_of_good inTargets outs params (findAll cmd) cmd
        (fun m hm => ⟨(findAll_wf hm).1,
          fun hb => hno ⟨m, mem_findAll_iff_contains.mp hm, hb⟩⟩)
      rw [formatCommand, hc] at he
      cases he
    · rintro ⟨m, hm, hb⟩
      obtain ⟨e, he⟩ := formatLoop_error_of_bad inTargets outs params (findAll cmd) cmd
        (fun m hm => (findAll_wf hm).1) ⟨m, mem_findAll_iff_contains.mpr hm, hb⟩
      exact ⟨e, by rw [formatCommand, he]⟩
  refine ⟨key outTargets, ?_⟩
  rw [← key]
  unfold NewSciTask
  simp only
  constructor
  · rintro ⟨e, he⟩
    split at he
    · rename_i e1 h1
      exact ⟨e1, h1⟩
    · cases he
  · rintro ⟨e, he⟩
    exact ⟨e, by rw [he]⟩

/-- The example of the spec for C2: a template referencing `{p:missing}` with no such
parameter fails, and `NewSciTask` returns no task. -/
theorem formatCommand_missing_param :
    formatCommand "echo {p:missing}".toList [] [] [] []
      = Except.error
          "Missing param value param 'missing' for command 'echo {p:missing}'".toList ∧
    (NewSciTask "t".toList "echo {p:missing}".toList [] [] [] [] []
      ExecMode.ExecModeLocal).toOption.isNone = true := by
  constructor <;> decide

/-- C10 as stated fails: on `{p:c}{p:missing}` with c = 5 the message names `missing`, but
the command it shows is `5{p:missing}`, the template after the first replacement, and the
template as passed is not part of the message. -/
theorem formatCommand_error_not_template :
    formatCommand "{p:c}{p:missing}".toList [] [] [("c".toList, "5".toList)] []
      = Except.error
          "Missing param value param 'missing' for command '5{p:missing}'".toList ∧
    ¬ "{p:c}{p:missing}".toList <:+:
      "Missing param value param 'missing' for command '5{p:missing}'".toList := by
  constructor <;> decide

/-- C10, amended.  When `formatCommand` fails, it fails at the first bad placeholder of the
template, and the message ends with that placeholder's name and the command as the
placeholders before it have rewritten it, which is the template as passed when the bad
placeholder is the first placeholder of the template. -/
theorem formatCommand_error_message (cmd : Str) (inTargets outTargets : Targets)
    (params : ParamMap) (prepend e : Str)
    (h : formatCommand cmd inTargets outTargets params prepend = Except.error e) :
    ∃ ms1 m ms2 cmd1 head, findAll cmd = ms1 ++ m :: ms2 ∧
      (∀ q ∈ ms1, ¬ badPlaceHolder inTargets outTargets params q) ∧
      badPlaceHolder inTargets outTargets params m ∧
      formatLoop inTargets outTargets params cmd ms1 = Except.ok cmd1 ∧
      e = head ++ m.name ++ "' for command '".toList ++ cmd1 ++ "'".toList ∧
      m.name <:+: e ∧ cmd1 <:+: e ∧ (ms1 = [] → cmd1 = cmd) := by
  have hl : formatLoop inTargets outTargets params cmd (findAll cmd) = Except.error e := by
    rw [formatCommand] at h
    split at h
    · rename_i e1 h1
      rw [h1]
      injection h with h
      rw [h]
    · cases h
  obtain ⟨ms1, m, ms2, cmd1, h1, h2, h3, h4, h5⟩ :=
    formatLoop_error_split inTargets outTargets params (findAll cmd) cmd e
      (fun m hm => (findAll_wf hm).1) hl
  have hm : m ∈ findAll cmd := by
    rw [h1]
    exact List.mem_append_right _ (List.mem_cons_self _ _)
  obtain ⟨head, h6⟩ := placeHolderValue_error inTargets outTargets params cmd1 m
    (findAll_wf hm).1 h3
  rw [h5] at h6
  injection h6 with h6
  refine ⟨ms1, m, ms2, cmd1, head, h1, h2, h3, h4, h6, ?_, ?_, ?_⟩
  · rw [h6]
    exact ⟨head, "' for command '".toList ++ cmd1 ++ "'".toList, by simp⟩
  · rw [h6]
    exact ⟨head ++ m.name ++ "' for command '".toList, "'".toList, by simp⟩
  · intro hnil
    subst hnil
    rw [formatLoop] at h4
    injection h4 with h4
    exact h4.symm

/-- C10, amended, on the template `{p:c}{p:missing}` with c = 5. -/
theorem formatCommand_error_message_witness :
    formatCommand "{p:c}{p:missing}".toList [] [] [("c".toList, "5".toList)] []
      = Except.error
          "Missing param value param 'missing' for command '5{p:missing}'".toList ∧
    ∃ ms1 m ms2 cmd1 head, findAll "{p:c}{p:missing}".toList = ms1 ++ m :: ms2 ∧
      (∀ q ∈ ms1, ¬ badPlaceHolder [] [] [("c".toList, "5".toList)] q) ∧
      badPlaceHolder [] [] [("c".toList, "5".toList)] m ∧
      formatLoop [] [] [("c".toList, "5".toList)] "{p:c}{p:missing}".toList ms1
        = Except.ok cmd1 ∧
      "Missing param value param 'missing' for command '5{p:missing}'".toList
        = head ++ m.name ++ "' for command '".toList ++ cmd1 ++ "'".toList ∧
      m.name <:+: "Missing param value param 'missing' for command '5{p:missing}'".toList ∧
      cmd1 <:+: "Missing param value param 'missing' for command '5{p:missing}'".toList ∧
      (ms1 = [] → cmd1 = "{p:c}{p:missing}".toList) :=
  ⟨by decide, formatCommand_error_message "{p:c}{p:missing}".toList [] []
    [("c".toList, "5".toList)] [] _ (by decide)⟩

/-! ## The checks before execution -/

theorem anyOutputExistsStep_fst (fs : FileSystem) (acc : Bool × List Event)
    (kv : Str × InformationPacket) :
    (anyOutputExistsStep fs acc kv).1 = (acc.1 || outputExists fs kv) := by
  unfold anyOutputExistsStep outputExists
  cases kv.2.doStream <;> cases fs.fileExists kv.2.GetPath <;>
    cases fs.fileExists kv.2.GetTempPath <;> simp

theorem anyOutputExistsStep_snd (fs : FileSystem) (acc : Bool × List Event)
    (kv : Str × InformationPacket) (e : Event) (he : e ∈ (anyOutputExistsStep fs acc kv).2) :
    e ∈ acc.2 ∨ e.isLog = true := by
  unfold anyOutputExistsStep at he
  revert he
  cases kv.2.doStream <;> cases fs.fileExists kv.2.GetPath <;>
    cases fs.fileExists kv.2.GetTempPath <;>
    simp only [Bool.false_eq_true, if_false, if_true, List.mem_append, List.mem_singleton] <;>
    intro he
  all_goals first
    | exact Or.inl he
    | (rcases he with he | he
       · exact Or.inl he
       · exact Or.inr (by rw [he]; rfl))
    | (rcases he with (he | he) | he
       · exact Or.inl he
       · exact Or.inr (by rw [he]; rfl)
       · exact Or.inr (by rw [he]; rfl))

theorem fifosMissingStep_fst (fs : FileSystem) (acc : Bool × List Event)
    (kv : Str × InformationPacket) :
    (fifosMissingStep fs acc kv).1 = (acc.1 || fifoMissing fs kv) := by
  unfold fifosMissingStep fifoMissing
  cases kv.2.doStream <;> cases fs.fileExists kv.2.GetFifoPath <;> simp

theorem fifosMissingStep_snd (fs : FileSystem) (acc : Bool × List Event)
    (kv : Str × InformationPacket) (e : Event) (he : e ∈ (fifosMissingStep fs acc kv).2) :
    e ∈ acc.2 ∨ e.isLog = true := by
  unfold fifosMissingStep at he
  revert he
  cases kv.2.doStream <;> cases fs.fileExists kv.2.GetFifoPath <;>
    simp only [Bool.false_eq_true, if_false, if_true, List.mem_append, List.mem_singleton] <;>
    intro he
  all_goals first
    | exact Or.inl he
    | (rcases he with he | he
       · exact Or.inl he
       · exact Or.inr (by rw [he]; rfl))

/-- A flag-and-log loop: the flag is raised by the outputs that satisfy the test, and only
log messages are added. -/
theorem check_foldl (step : Bool × List Event → Str × InformationPacket → Bool × List Event)
    (test : Str × InformationPacket → Bool)
    (h1 : ∀ acc kv, (step acc kv).1 = (acc.1 || test kv))
    (h2 : ∀ acc kv e, e ∈ (step acc kv).2 → e ∈ acc.2 ∨ e.isLog = true) :
    ∀ (l : Targets) (acc : Bool × List Event),
      (l.foldl step acc).1 = (acc.1 || l.any test) ∧
      ∀ e ∈ (l.foldl step acc).2, e ∈ acc.2 ∨ e.isLog = true
  | [], acc => ⟨by simp, fun e he => Or.inl he⟩
  | kv :: l, acc => by
    obtain ⟨ih1, ih2⟩ := check_foldl step test h1 h2 l (step acc kv)
    rw [List.foldl_cons]
    refine ⟨?_, ?_⟩
    · rw [ih1, h1, List.any_cons, Bool.or_assoc]
    · intro e he
      rcases ih2 e he with h | h
      · exact h2 acc kv e h
      · exact Or.inr h

theorem anyOutputExists_fst (t : TaskData) (fs : FileSystem) :
    (anyOutputExists t fs).1 = t.OutTargets.any (outputExists fs) := by
  have h := (check_foldl (anyOutputExistsStep fs) (outputExists fs)
    (anyOutputExistsStep_fst fs) (anyOutputExistsStep_snd fs) t.OutTargets (false, [])).1
  simpa [anyOutputExists] using h

theorem anyOutputExists_snd (t : TaskData) (fs : FileSystem) :
    ∀ e ∈ (anyOutputExists t fs).2, e.isLog = true := by
  intro e he
  rcases (check_foldl (anyOutputExistsStep fs) (outputExists fs)
    (anyOutputExistsStep_fst fs) (anyOutputExistsStep_snd fs) t.OutTargets (false, [])).2 e he
    with h | h
  · cases h
  · exact h

theorem fifosInOutTargetsMissing_fst (t : TaskData) (fs : FileSystem) :
    (fifosInOutTargetsMissing t fs).1 = t.OutTargets.any (fifoMissing fs) := by
  have h := (check_foldl (fifosMissingStep fs) (fifoMissing fs)
    (fifosMissingStep_fst fs) (fifosMissingStep_snd fs) t.OutTargets (false, [])).1
  simpa [fifosInOutTargetsMissing] using h

theorem fifosInOutTargetsMissing_snd (t : TaskData) (fs : FileSystem) :
    ∀ e ∈ (fifosInOutTargetsMissing t fs).2, e.isLog = true := by
  intro e he
  rcases (check_foldl (fifosMissingStep fs) (fifoMissing fs)
    (fifosMissingStep_fst fs) (fifosMissingStep_snd fs) t.OutTargets (false, [])).2 e he
    with h | h
  · cases h
  · exact h

theorem effects_of_logs (l : List Event) (h : ∀ e ∈ l, e.isLog = true) : effects l = [] := by
  unfold effects
  rw [List.filter_eq_nil_iff]
  intro e he
  simp [h e he]

theorem effects_append (a b : List Event) : effects (a ++ b) = effects a ++ effects b := by
  simp [effects]

/-! ## Provenance and commit loops -/

theorem attachAuditInfo_fst (env : Env) (ai : AuditInfo) :
    ∀ (outs : Targets) (fs : FileSystem),
      (attachAuditInfo env ai outs fs).1 = setAuditInfos ai outs
  | [], _ => rfl
  | (k, oip) :: rest, fs => by
    rw [attachAuditInfo, setAuditInfos, List.map_cons]
    simp only
    rw [attachAuditInfo_fst env ai rest]
    rfl

theorem attachAuditInfo_events (env : Env) (ai : AuditInfo) :
    ∀ (outs : Targets) (fs : FileSystem),
      (attachAuditInfo env ai outs fs).2.2 = provEvents outs
  | [], _ => rfl
  | (k, oip) :: rest, fs => by
    rw [attachAuditInfo]
    simp only
    rw [attachAuditInfo_events env ai rest]
    rfl

theorem atomizeTargets_events :
    ∀ (outs : Targets) (fs fs1 : FileSystem) (ev : List Event),
      atomizeTargets outs fs = (ev, some fs1) → ev = renameEvents outs
  | [], _, _, ev, h => by
    simp only [atomizeTargets, Prod.mk.injEq] at h
    rw [← h.1]
    rfl
  | (k, tgt) :: rest, fs, fs1, ev, h => by
    rw [atomizeTargets] at h
    by_cases hs : tgt.doStream = true
    · rw [if_pos hs] at h
      rw [atomizeTargets_events rest fs fs1 ev h]
      simp [renameEvents, hs]
    · rw [if_neg hs] at h
      cases ha : Atomize tgt fs with
      | none =>
        rw [ha] at h
        simp at h
      | some fs2 =>
        rw [ha] at h
        simp only [Prod.mk.injEq] at h
        have ih := atomizeTargets_events rest fs2 fs1 (atomizeTargets rest fs2).1
          (by rw [← h.2])
        rw [← h.1, ih]
        simp [renameEvents, hs]

theorem renameEvents_setAuditInfos (ai : AuditInfo) (outs : Targets) :
    renameEvents (setAuditInfos ai outs) = renameEvents outs := by
  induction outs with
  | nil => rfl
  | cons kv rest ih =>
    simp only [renameEvents, setAuditInfos, List.map_cons, List.filter_cons] at ih ⊢
    by_cases hs : kv.2.doStream = true
    · simp [InformationPacket.SetAuditInfo, hs] at ih ⊢
      exact ih
    · simp [InformationPacket.SetAuditInfo, hs] at ih ⊢
      exact ⟨⟨rfl, rfl⟩, ih⟩

/-! ## The shape of a run -/

/-- A run that is skipped: nothing but log messages, then the completion signal. -/
theorem Execute_of_skipped (env : Env) (t : SciTask) (fs : FileSystem)
    (h : skipped t.toTaskData fs = true) :
    ∃ logs, (∀ e ∈ logs, e.isLog = true) ∧
      Execute env t fs = finish t.toTaskData fs logs := by
  unfold skipped at h
  unfold Execute
  simp only
  by_cases h1 : (anyOutputExists t.toTaskData fs).1 = true
  · rw [if_pos h1]
    exact ⟨_, anyOutputExists_snd _ _, rfl⟩
  · rw [if_neg h1]
    have h2 : (fifosInOutTargetsMissing t.toTaskData fs).1 = true := by
      simpa [h1] using h
    rw [if_pos h2]
    refine ⟨_, ?_, rfl⟩
    intro e he
    rcases List.mem_append.mp he with h3 | h3
    · exact anyOutputExists_snd _ _ e h3
    · exact fifosInOutTargetsMissing_snd _ _ e h3

/-- A run that is not skipped and whose execution step stops the program. -/
theorem Execute_of_stopped (env : Env) (t : SciTask) (fs fs1 : FileSystem)
    (ev : List Event) (st : Status) (h : skipped t.toTaskData fs = false)
    (hstep : executionStep env t fs = StepResult.stopped fs1 ev st) :
    ∃ logs, (∀ e ∈ logs, e.isLog = true) ∧
      Execute env t fs = { task := t.toTaskData, fs := fs1, trace := logs ++ ev, status := st } := by
  unfold skipped at h
  simp only [Bool.or_eq_false_iff] at h
  unfold Execute
  simp only [h.1, h.2, Bool.false_eq_true, if_false, hstep]
  refine ⟨_, ?_, rfl⟩
  intro e he
  rcases List.mem_append.mp he with h3 | h3
  · exact anyOutputExists_snd _ _ e h3
  · exact fifosInOutTargetsMissing_snd _ _ e h3

/-- A run that is not skipped and returns: the execution step, then the provenance loop
over the outputs, then the renames of the outputs that are not streaming, then the
completion signal. -/
theorem Execute_of_returned (env : Env) (t : SciTask) (fs : FileSystem)
    (h : skipped t.toTaskData fs = false)
    (hret : (Execute env t fs).status = Status.returned) :
    ∃ t1 fs1 ev logs, executionStep env t fs = StepResult.done t1 fs1 ev ∧
      (∀ e ∈ logs, e.isLog = true) ∧
      (Execute env t fs).task =
        { t1 with OutTargets := setAuditInfos (buildAuditInfo env t1) t1.OutTargets } ∧
      (Execute env t fs).trace = logs ++ ev ++ provEvents t1.OutTargets ++
        renameEvents t1.OutTargets ++ [Event.sendDone, Event.closeDone] := by
  unfold skipped at h
  simp only [Bool.or_eq_false_iff] at h
  have hlogs : ∀ e ∈ (anyOutputExists t.toTaskData fs).2 ++
      (fifosInOutTargetsMissing t.toTaskData fs).2, e.isLog = true := by
    intro e he
    rcases List.mem_append.mp he with h3 | h3
    · exact anyOutputExists_snd _ _ e h3
    · exact fifosInOutTargetsMissing_snd _ _ e h3
  unfold Execute at hret ⊢
  simp only [h.1, h.2, Bool.false_eq_true, if_false] at hret ⊢
  cases hstep : executionStep env t fs with
  | stopped fs1 ev st =>
    rw [hstep] at hret
    simp only at hret
    -- the step stopped the program with a status that is not `returned`
    unfold executionStep at hstep
    exfalso
    revert hstep
    cases t.CustomExecute with
    | some f =>
      simp only
      cases f t.toTaskData fs with
      | some r => intro hstep; cases hstep
      | none =>
        intro hstep
        injection hstep with _ _ h5
        rw [← h5] at hret
        cases hret
    | none =>
      simp only
      cases t.ExecMode with
      | ExecModeLocal =>
        simp only [executeCommand]
        cases env.bash t.Command fs with
        | mk fs2 ok =>
          cases ok with
          | true => intro hstep; cases hstep
          | false =>
            intro hstep
            injection hstep with _ _ h5
            rw [← h5] at hret
            cases hret
      | ExecModeSLURM => intro hstep; cases hstep
      | ExecModeK8s =>
        simp only [executeCommandonKubernetes]
        cases env.kube t.Name t.Command t.KubeConfigPath t.Image t.DataFolder fs with
        | some fs2 => intro hstep; cases hstep
        | none =>
          intro hstep
          injection hstep with _ _ h5
          rw [← h5] at hret
          cases hret
  | done t1 fs1 ev =>
    rw [hstep] at hret
    simp only at hret ⊢
    refine ⟨t1, fs1, ev, _, rfl, hlogs, ?_⟩
    cases hat : atomizeTargets (attachAuditInfo env (buildAuditInfo env t1) t1.OutTargets fs1).1
        (attachAuditInfo env (buildAuditInfo env t1) t1.OutTargets fs1).2.1 with
    | mk ev3 r =>
      rw [hat] at hret
      cases r with
      | none => cases hret
      | some fs3 =>
        have hev := atomizeTargets_events _ _ _ _ hat
        rw [attachAuditInfo_fst, renameEvents_setAuditInfos] at hev
        simp only [finish, attachAuditInfo_fst, attachAuditInfo_events, hev, true_and]

/-! ## The upstream map -/

theorem mem_mapInsert {β : Type} (k : Str) (v : β) :
    ∀ (l : List (Str × β)) (e : Str × β), e ∈ mapInsert k v l → e = (k, v) ∨ e ∈ l
  | [], e, h => by
    simp only [mapInsert, List.mem_singleton] at h
    exact Or.inl h
  | x :: l, e, h => by
    rw [mapInsert] at h
    by_cases hx : x.1 = k
    · rw [if_pos hx] at h
      rcases List.mem_cons.mp h with h1 | h1
      · exact Or.inl h1
      · exact Or.inr (List.mem_cons_of_mem _ h1)
    · rw [if_neg hx] at h
      rcases List.mem_cons.mp h with h1 | h1
      · exact Or.inr (by rw [h1]; exact List.mem_cons_self _ _)
      · rcases mem_mapInsert k v l e h1 with h2 | h2
        · exact Or.inl h2
        · exact Or.inr (List.mem_cons_of_mem _ h2)

theorem keys_mapInsert {β : Type} (k : Str) (v : β) :
    ∀ (l : List (Str × β)),
      (mapInsert k v l).map Prod.fst
        = if k ∈ l.map Prod.fst then l.map Prod.fst else l.map Prod.fst ++ [k]
  | [] => by simp [mapInsert]
  | x :: l => by
    rw [mapInsert]
    by_cases hx : x.1 = k
    · rw [if_pos hx]
      have hm : k ∈ List.map Prod.fst (x :: l) := by
        rw [List.map_cons, ← hx]
        exact List.mem_cons_self _ _
      rw [if_pos hm, List.map_cons, List.map_cons, hx]
    · rw [if_neg hx, List.map_cons, keys_mapInsert k v l]
      have hk : k ≠ x.1 := fun h => hx h.symm
      by_cases hm : k ∈ l.map Prod.fst
      · simp [hm]
      · rw [if_neg hm]
        have : k ∉ List.map Prod.fst (x :: l) := by
          rw [List.map_cons, List.mem_cons]
          exact fun h => h.elim hk hm
        rw [if_neg this]
        simp

theorem nodup_keys_mapInsert {β : Type} (k : Str) (v : β) (l : List (Str × β))
    (h : (l.map Prod.fst).Nodup) : ((mapInsert k v l).map Prod.fst).Nodup := by
  rw [keys_mapInsert]
  by_cases hm : k ∈ l.map Prod.fst
  · rw [if_pos hm]
    exact h
  · rw [if_neg hm]
    exact List.Nodup.append h (List.nodup_singleton k)
      (by
        intro a ha hb
        rw [List.mem_singleton] at hb
        subst hb
        exact hm ha)

theorem mem_keys_mapInsert {β : Type} (k : Str) (v : β) (l : List (Str × β)) (a : Str) :
    a ∈ (mapInsert k v l).map Prod.fst ↔ a = k ∨ a ∈ l.map Prod.fst := by
  rw [keys_mapInsert]
  by_cases hm : k ∈ l.map Prod.fst
  · rw [if_pos hm]
    constructor
    · exact Or.inr
    · rintro (h | h)
      · rw [h]
        exact hm
      · exact h
  · rw [if_neg hm, List.mem_append, List.mem_singleton]
    exact Or.comm

/-- The upstream map built from the inputs: its keys are distinct, every input's path is a
key, and every entry is the path and the record of an input or an entry of the map the
loop started from. -/
theorem addUpstream_spec :
    ∀ (ins : Targets) (up : List (Str × Option AuditInfo)), (up.map Prod.fst).Nodup →
      ((addUpstream ins up).map Prod.fst).Nodup ∧
      (∀ a, a ∈ (addUpstream ins up).map Prod.fst ↔
        a ∈ up.map Prod.fst ∨ ∃ i ∈ ins, i.2.GetPath = a) ∧
      (∀ e ∈ addUpstream ins up,
        e ∈ up ∨ ∃ i ∈ ins, i.2.GetPath = e.1 ∧ i.2.auditInfo = e.2)
  | [], up, h => by
    refine ⟨h, ?_, ?_⟩
    · intro a
      show a ∈ up.map Prod.fst ↔ _
      constructor
      · exact Or.inl
      · rintro (h1 | ⟨i, hi, _⟩)
        · exact h1
        · cases hi
    · intro e he
      exact Or.inl he
  | i :: ins, up, h => by
    have hn := nodup_keys_mapInsert i.2.GetPath i.2.auditInfo up h
    obtain ⟨ih1, ih2, ih3⟩ := addUpstream_spec ins (mapInsert i.2.GetPath i.2.auditInfo up) hn
    have hcons : addUpstream (i :: ins) up
        = addUpstream ins (mapInsert i.2.GetPath i.2.auditInfo up) := rfl
    rw [hcons]
    refine ⟨ih1, ?_, ?_⟩
    · intro a
      rw [ih2 a, mem_keys_mapInsert]
      constructor
      · rintro ((h1 | h1) | ⟨j, hj, hja⟩)
        · exact Or.inr ⟨i, List.mem_cons_self _ _, h1.symm⟩
        · exact Or.inl h1
        · exact Or.inr ⟨j, List.mem_cons_of_mem _ hj, hja⟩
      · rintro (h1 | ⟨j, hj, hja⟩)
        · exact Or.inl (Or.inr h1)
        · rcases List.mem_cons.mp hj with h2 | h2
          · subst h2
            exact Or.inl (Or.inl hja.symm)
          · exact Or.inr ⟨j, h2, hja⟩
    · intro e he
      rcases ih3 e he with h1 | ⟨j, hj, hj1, hj2⟩
      · rcases mem_mapInsert _ _ _ _ h1 with h2 | h2
        · exact Or.inr ⟨i, List.mem_cons_self _ _, by rw [h2], by rw [h2]⟩
        · exact Or.inl h2
      · exact Or.inr ⟨j, List.mem_cons_of_mem _ hj, hj1, hj2⟩

theorem lookup_of_mem_nodup {β : Type} :
    ∀ (l : List (Str × β)) (k : Str) (v : β), (l.map Prod.fst).Nodup → (k, v) ∈ l →
      l.lookup k = some v
  | [], _, _, _, h => by cases h
  | x :: l, k, v, hn, h => by
    obtain ⟨xk, xv⟩ := x
    rw [List.map_cons, List.nodup_cons] at hn
    rcases List.mem_cons.mp h with h1 | h1
    · injection h1 with h2 h3
      subst h2 h3
      simp [List.lookup]
    · have hne : k ≠ xk := by
        intro hk
        subst hk
        exact hn.1 (List.mem_map.mpr ⟨(k, v), h1, rfl⟩)
      have hb : (k == xk) = false := by simpa using hne
      rw [List.lookup, hb]
      exact lookup_of_mem_nodup l k v hn.2 h1

/-! ## The execution step -/

theorem executionStep_no_custom (env : Env) (t : SciTask) (fs fs1 : FileSystem)
    (t1 : TaskData) (ev : List Event) (hc : t.CustomExecute = none)
    (h : executionStep env t fs = StepResult.done t1 fs1 ev) : t1 = t.toTaskData := by
  unfold executionStep at h
  rw [hc] at h
  simp only at h
  revert h
  cases t.ExecMode with
  | ExecModeLocal =>
    simp only [executeCommand]
    cases env.bash t.Command fs with
    | mk fs2 ok =>
      cases ok with
      | true =>
        intro h
        injection h with h1
        exact h1.symm
      | false => intro h; cases h
  | ExecModeSLURM =>
    intro h
    injection h with h1
    exact h1.symm
  | ExecModeK8s =>
    simp only [executeCommandonKubernetes]
    cases env.kube t.Name t.Command t.KubeConfigPath t.Image t.DataFolder fs with
    | some fs2 =>
      intro h
      injection h with h1
      exact h1.symm
    | none => intro h; cases h

/-- The events of an execution step that returns: log messages and one event of the custom
function or of the backend. -/
theorem executionStep_events (env : Env) (t : SciTask) (fs fs1 : FileSystem)
    (t1 : TaskData) (ev : List Event)
    (h : executionStep env t fs = StepResult.done t1 fs1 ev) :
    ∀ e ∈ ev, e.isLog = true ∨ e = Event.customExecute ∨ e = Event.bash t.Command ∨
      e = Event.kubeSubmit t.Command := by
  unfold executionStep at h
  revert h
  cases t.CustomExecute with
  | some f =>
    simp only
    cases f t.toTaskData fs with
    | some r =>
      intro h e he
      injection h with _ _ h3
      rw [← h3] at he
      simp only [List.mem_cons, List.mem_singleton, List.not_mem_nil, or_false] at he
      rcases he with he | he
      · exact Or.inl (by rw [he]; rfl)
      · exact Or.inr (Or.inl he)
    | none => intro h; cases h
  | none =>
    simp only
    cases t.ExecMode with
    | ExecModeLocal =>
      simp only [executeCommand]
      cases env.bash t.Command fs with
      | mk fs2 ok =>
        cases ok with
        | true =>
          intro h e he
          injection h with _ _ h3
          rw [← h3] at he
          simp only [List.mem_cons, List.mem_singleton, List.not_mem_nil, or_false] at he
          rcases he with he | he
          · exact Or.inl (by rw [he]; rfl)
          · exact Or.inr (Or.inr (Or.inl he))
        | false => intro h; cases h
    | ExecModeSLURM =>
      intro h e he
      injection h with _ _ h3
      rw [← h3] at he
      simp only [List.mem_singleton] at he
      exact Or.inl (by rw [he]; rfl)
    | ExecModeK8s =>
      simp only [executeCommandonKubernetes]
      cases env.kube t.Name t.Command t.KubeConfigPath t.Image t.DataFolder fs with
      | some fs2 =>
        intro h e he
        injection h with _ _ h3
        rw [← h3] at he
        simp only [List.mem_singleton] at he
        exact Or.inr (Or.inr (Or.inr he))
      | none => intro h; cases h

theorem foldl_fifosMissingStep_mono (fs : FileSystem) :
    ∀ (l : Targets) (acc : Bool × List Event) (e : Event), e ∈ acc.2 →
      e ∈ (l.foldl (fifosMissingStep fs) acc).2
  | [], _, _, h => h
  | kv :: l, acc, e, h => by
    rw [List.foldl_cons]
    apply foldl_fifosMissingStep_mono fs l
    unfold fifosMissingStep
    cases kv.2.doStream <;> cases fs.fileExists kv.2.GetFifoPath <;> simp [h]

/-- Every streaming output whose FIFO is missing gets its warning. -/
theorem fifosInOutTargetsMissing_warns (fs : FileSystem) :
    ∀ (l : Targets) (acc : Bool × List Event) (kv : Str × InformationPacket), kv ∈ l →
      kv.2.doStream = true → fs.fileExists kv.2.GetFifoPath = false →
      Event.log LogLevel.warning kv.2.GetFifoPath ∈ (l.foldl (fifosMissingStep fs) acc).2
  | [], _, _, h, _, _ => by cases h
  | x :: l, acc, kv, h, hs, hf => by
    rw [List.foldl_cons]
    rcases List.mem_cons.mp h with h1 | h1
    · subst h1
      apply foldl_fifosMissingStep_mono fs l
      simp [fifosMissingStep, hs, hf]
    · exact fifosInOutTargetsMissing_warns fs l _ kv h1 hs hf

theorem effects_finish_logs (logs : List Event) (h : ∀ e ∈ logs, e.isLog = true) :
    effects (logs ++ [Event.sendDone, Event.closeDone]) = [Event.sendDone, Event.closeDone] := by
  rw [effects_append, effects_of_logs logs h]
  rfl

/-! ## The commit on the file system -/

theorem lookup_filter_ne (a b p : Str) :
    ∀ (fs : FileSystem),
      (fs.filter (fun e => !(e.1 == a) && !(e.1 == b))).lookup p
        = if p = a ∨ p = b then none else fs.lookup p
  | [] => by simp [List.lookup]
  | (k, v) :: fs => by
    have ih := lookup_filter_ne a b p fs
    by_cases hka : k = a
    · subst hka
      have hf : (((k, v) :: fs).filter (fun e => !(e.1 == k) && !(e.1 == b)))
          = fs.filter (fun e => !(e.1 == k) && !(e.1 == b)) := by
        simp [List.filter_cons]
      rw [hf, ih]
      by_cases hp : p = k ∨ p = b
      · rw [if_pos hp, if_pos hp]
      · rw [if_neg hp, if_neg hp]
        have hpk : (p == k) = false := by
          simp only [beq_eq_false_iff_ne]
          exact fun h => hp (Or.inl h)
        simp only [List.lookup, hpk]
    · by_cases hkb : k = b
      · subst hkb
        have hf : (((k, v) :: fs).filter (fun e => !(e.1 == a) && !(e.1 == k)))
            = fs.filter (fun e => !(e.1 == a) && !(e.1 == k)) := by
          simp [List.filter_cons]
        rw [hf, ih]
        by_cases hp : p = a ∨ p = k
        · rw [if_pos hp, if_pos hp]
        · rw [if_neg hp, if_neg hp]
          have hpk : (p == k) = false := by
            simp only [beq_eq_false_iff_ne]
            exact fun h => hp (Or.inr h)
          simp only [List.lookup, hpk]
      · have hf : (((k, v) :: fs).filter (fun e => !(e.1 == a) && !(e.1 == b)))
            = (k, v) :: fs.filter (fun e => !(e.1 == a) && !(e.1 == b)) := by
          simp [List.filter_cons, hka, hkb]
        rw [hf]
        by_cases hpk : p = k
        · subst hpk
          have hp : ¬ (p = a ∨ p = b) := fun h => h.elim hka hkb
          rw [if_neg hp]
          simp [List.lookup]
        · have hpk2 : (p == k) = false := by
            simp only [beq_eq_false_iff_ne]
            exact hpk
          simp only [List.lookup, hpk2]
          exact ih

/-- What a rename that is done leaves under each path: the new path holds what the old
path held, the old path is gone, every other path is as before. -/
theorem rename_lookup {fs fs1 : FileSystem} {old new : Str}
    (h : FileSystem.rename fs old new = some fs1) (p : Str) :
    fs.lookup old ≠ none ∧
    fs1.lookup p = if p = new then fs.lookup old else if p = old then none else fs.lookup p := by
  unfold FileSystem.rename at h
  cases ho : List.lookup old fs with
  | none =>
    rw [ho] at h
    cases h
  | some content =>
    rw [ho] at h
    simp only [Option.some.injEq] at h
    refine ⟨by simp, ?_⟩
    rw [← h]
    by_cases hp : p = new
    · subst hp
      rw [if_pos rfl]
      simp [List.lookup]
    · have hpn : (p == new) = false := by
        simp only [beq_eq_false_iff_ne]
        exact hp
      rw [if_neg hp]
      simp only [List.lookup, hpn]
      rw [lookup_filter_ne]
      by_cases hpo : p = old
      · rw [if_pos (Or.inl hpo), if_pos hpo]
      · rw [if_neg (fun h => h.elim hpo hp), if_neg hpo]

theorem mem_commitPaths (p : Str) :
    ∀ (outs : Targets), p ∈ commitPaths outs ↔
      ∃ kv ∈ outs, kv.2.doStream = false ∧
        (p = kv.2.path ++ ".tmp".toList ∨ p = kv.2.path)
  | [] => by
    rw [commitPaths]
    constructor
    · intro h
      cases h
    · rintro ⟨x, hx, _⟩
      cases hx
  | kv :: rest => by
    have ih := mem_commitPaths p rest
    rw [commitPaths]
    by_cases hs : kv.2.doStream = true
    · rw [if_pos hs, ih]
      constructor
      · rintro ⟨x, hx, h1, h2⟩
        exact ⟨x, List.mem_cons_of_mem _ hx, h1, h2⟩
      · rintro ⟨x, hx, h1, h2⟩
        rcases List.mem_cons.mp hx with h3 | h3
        · subst h3
          rw [hs] at h1
          cases h1
        · exact ⟨x, h3, h1, h2⟩
    · rw [if_neg hs, List.mem_cons, List.mem_cons, ih]
      have hs1 : kv.2.doStream = false := by simpa using hs
      constructor
      · rintro (h | h | ⟨x, hx, h1, h2⟩)
        · exact ⟨kv, List.mem_cons_self _ _, hs1, Or.inl h⟩
        · exact ⟨kv, List.mem_cons_self _ _, hs1, Or.inr h⟩
        · exact ⟨x, List.mem_cons_of_mem _ hx, h1, h2⟩
      · rintro ⟨x, hx, h1, h2⟩
        rcases List.mem_cons.mp hx with h3 | h3
        · subst h3
          rcases h2 with h2 | h2
          · exact Or.inl h2
          · exact Or.inr (Or.inl h2)
        · exact Or.inr (Or.inr ⟨x, h3, h1, h2⟩)

/-- A commit leaves every path it does not touch as it was. -/
theorem commitRenames_frame :
    ∀ (outs : Targets) (fs fs1 : FileSystem), commitRenames outs fs = some fs1 →
      ∀ p, p ∉ commitPaths outs → fs1.lookup p = fs.lookup p
  | [], fs, fs1, h, p, _ => by
    simp only [commitRenames, Option.some.injEq] at h
    rw [h]
  | kv :: rest, fs, fs1, h, p, hp => by
    rw [commitRenames] at h
    rw [commitPaths] at hp
    by_cases hs : kv.2.doStream = true
    · rw [if_pos hs] at h hp
      exact commitRenames_frame rest fs fs1 h p hp
    · rw [if_neg hs] at h hp
      cases hr : FileSystem.rename fs (kv.2.path ++ ".tmp".toList) kv.2.path with
      | none =>
        rw [hr] at h
        cases h
      | some fs2 =>
        rw [hr] at h
        simp only at h
        have h1 : p ≠ kv.2.path ++ ".tmp".toList :=
          fun he => hp (by rw [he]; exact List.mem_cons_self _ _)
        have h2 : p ≠ kv.2.path :=
          fun he => hp (by rw [he]; exact List.mem_cons_of_mem _ (List.mem_cons_self _ _))
        have h3 : p ∉ commitPaths rest :=
          fun he => hp (List.mem_cons_of_mem _ (List.mem_cons_of_mem _ he))
        rw [commitRenames_frame rest fs2 fs1 h p h3, (rename_lookup hr p).2, if_neg h2,
          if_neg h1]

/-- When the paths a commit touches are all different, every output that is not streaming
ends with what its temp path held under its final path, and without its temp path. -/
theorem commitRenames_effect :
    ∀ (outs : Targets) (fs fs1 : FileSystem), commitRenames outs fs = some fs1 →
      (commitPaths outs).Nodup →
      ∀ kv ∈ outs, kv.2.doStream = false →
        fs.lookup (kv.2.path ++ ".tmp".toList) ≠ none ∧
        fs1.lookup kv.2.path = fs.lookup (kv.2.path ++ ".tmp".toList) ∧
        fs1.lookup (kv.2.path ++ ".tmp".toList) = none
  | [], _, _, _, _, kv, hkv, _ => by cases hkv
  | x :: rest, fs, fs1, h, hn, kv, hkv, hks => by
    rw [commitRenames] at h
    rw [commitPaths] at hn
    by_cases hs : x.2.doStream = true
    · rw [if_pos hs] at h hn
      rcases List.mem_cons.mp hkv with h1 | h1
      · subst h1
        rw [hs] at hks
        cases hks
      · exact commitRenames_effect rest fs fs1 h hn kv h1 hks
    · rw [if_neg hs] at h hn
      cases hr : FileSystem.rename fs (x.2.path ++ ".tmp".toList) x.2.path with
      | none =>
        rw [hr] at h
        cases h
      | some fs2 =>
        rw [hr] at h
        simp only at h
        rw [List.nodup_cons, List.nodup_cons] at hn
        obtain ⟨hn1, hn2, hn3⟩ := hn
        have hne : x.2.path ≠ x.2.path ++ ".tmp".toList :=
          fun he => hn1 (by rw [← he]; exact List.mem_cons_self _ _)
        have hx1 : x.2.path ++ ".tmp".toList ∉ commitPaths rest :=
          fun he => hn1 (List.mem_cons_of_mem _ he)
        rcases List.mem_cons.mp hkv with h1 | h1
        · subst h1
          refine ⟨(rename_lookup hr kv.2.path).1, ?_, ?_⟩
          · rw [commitRenames_frame rest fs2 fs1 h _ hn2, (rename_lookup hr _).2, if_pos rfl]
          · rw [commitRenames_frame rest fs2 fs1 h _ hx1, (rename_lookup hr _).2,
              if_neg (fun he => hne he.symm), if_pos rfl]
        · have hk1 : kv.2.path ++ ".tmp".toList ∈ commitPaths rest :=
            (mem_commitPaths _ rest).mpr ⟨kv, h1, hks, Or.inl rfl⟩
          have hk2 : kv.2.path ++ ".tmp".toList ≠ x.2.path :=
            fun he => hn2 (by rw [← he]; exact hk1)
          have hk3 : kv.2.path ++ ".tmp".toList ≠ x.2.path ++ ".tmp".toList :=
            fun he => hx1 (by rw [← he]; exact hk1)
          obtain ⟨i1, i2, i3⟩ := commitRenames_effect rest fs2 fs1 h hn3 kv h1 hks
          have hl := (rename_lookup hr (kv.2.path ++ ".tmp".toList)).2
          rw [if_neg hk2, if_neg hk3] at hl
          rw [hl] at i1 i2
          exact ⟨i1, i2, i3⟩

/-- The code's commit does on the file system what the spec's words say. -/
theorem atomizeTargets_snd :
    ∀ (outs : Targets) (fs : FileSystem), (atomizeTargets outs fs).2 = commitRenames outs fs
  | [], _ => rfl
  | (k, tgt) :: rest, fs => by
    rw [atomizeTargets, commitRenames]
    by_cases hs : tgt.doStream = true
    · rw [if_pos hs, if_pos hs]
      exact atomizeTargets_snd rest fs
    · rw [if_neg hs, if_neg hs]
      show (match Atomize tgt fs with
        | none => ([Event.rename tgt.GetTempPath tgt.GetPath], none)
        | some fs1 =>
          (Event.rename tgt.GetTempPath tgt.GetPath :: (atomizeTargets rest fs1).1,
            (atomizeTargets rest fs1).2)).2 = _
      have ha : Atomize tgt fs = FileSystem.rename fs (tgt.path ++ ".tmp".toList) tgt.path := rfl
      rw [ha]
      cases FileSystem.rename fs (tgt.path ++ ".tmp".toList) tgt.path with
      | none => rfl
      | some fs1 => exact atomizeTargets_snd rest fs1

theorem commitRenames_setAuditInfos (ai : AuditInfo) :
    ∀ (outs : Targets) (fs : FileSystem),
      commitRenames (setAuditInfos ai outs) fs = commitRenames outs fs
  | [], _ => rfl
  | kv :: rest, fs => by
    have hc : setAuditInfos ai (kv :: rest)
        = (kv.1, kv.2.SetAuditInfo ai) :: setAuditInfos ai rest := rfl
    rw [hc, commitRenames, commitRenames]
    have h1 : (kv.1, kv.2.SetAuditInfo ai).2.doStream = kv.2.doStream := rfl
    have h2 : (kv.1, kv.2.SetAuditInfo ai).2.path = kv.2.path := rfl
    rw [h1, h2]
    by_cases hs : kv.2.doStream = true
    · rw [if_pos hs, if_pos hs]
      exact commitRenames_setAuditInfos ai rest fs
    · rw [if_neg hs, if_neg hs]
      cases FileSystem.rename fs (kv.2.path ++ ".tmp".toList) kv.2.path with
      | none => rfl
      | some fs1 => exact commitRenames_setAuditInfos ai rest fs1

theorem attachAuditInfo_fs (env : Env) (ai : AuditInfo) :
    ∀ (outs : Targets) (fs : FileSystem),
      (attachAuditInfo env ai outs fs).2.1 = writeSidecars env ai outs fs
  | [], _ => rfl
  | (k, oip) :: rest, fs => by
    rw [attachAuditInfo]
    simp only
    rw [attachAuditInfo_fs env ai rest]
    rfl

/-- The file system a returning run leaves: the one the execution step left, after the
sidecar writes and then the renames of the commit. -/
theorem Execute_fs_of_returned (env : Env) (t : SciTask) (fs fs1 : FileSystem)
    (t1 : TaskData) (ev : List Event) (h : skipped t.toTaskData fs = false)
    (hstep : executionStep env t fs = StepResult.done t1 fs1 ev)
    (hret : (Execute env t fs).status = Status.returned) :
    commitRenames t1.OutTargets (writeSidecars env (buildAuditInfo env t1) t1.OutTargets fs1)
      = some (Execute env t fs).fs := by
  have key : (atomizeTargets (attachAuditInfo env (buildAuditInfo env t1) t1.OutTargets fs1).1
      (attachAuditInfo env (buildAuditInfo env t1) t1.OutTargets fs1).2.1).2
      = some (Execute env t fs).fs := by
    unfold skipped at h
    simp only [Bool.or_eq_false_iff] at h
    unfold Execute at hret ⊢
    simp only [h.1, h.2, Bool.false_eq_true, if_false, hstep] at hret ⊢
    generalize atomizeTargets (attachAuditInfo env (buildAuditInfo env t1) t1.OutTargets fs1).1
      (attachAuditInfo env (buildAuditInfo env t1) t1.OutTargets fs1).2.1 = r at hret ⊢
    obtain ⟨ev3, o⟩ := r
    cases o with
    | none => cases hret
    | some fs3 => rfl
  rw [atomizeTargets_snd, attachAuditInfo_fst, commitRenames_setAuditInfos,
    attachAuditInfo_fs] at key
  exact key

/-! ## Execution: the claims -/

/-- C3.  When the final path or the temp path of some non-streaming output exists, `Execute`
leaves the file system and the task as they are (no provenance record is attached or
written, nothing is renamed), it returns, and apart from log messages it does nothing but
signal completion: no custom function and no backend command is run. -/
theorem Execute_skips_existing_output (env : Env) (t : SciTask) (fs : FileSystem)
    (h : ∃ kv ∈ t.OutTargets, kv.2.doStream = false ∧
      (fs.fileExists kv.2.GetPath = true ∨ fs.fileExists kv.2.GetTempPath = true)) :
    (Execute env t fs).fs = fs ∧ (Execute env t fs).task = t.toTaskData ∧
    (Execute env t fs).status = Status.returned ∧
    effects (Execute env t fs).trace = [Event.sendDone, Event.closeDone] := by
  have hsk : skipped t.toTaskData fs = true := by
    unfold skipped
    rw [anyOutputExists_fst]
    obtain ⟨kv, hkv, hs, hex⟩ := h
    have : t.OutTargets.any (outputExists fs) = true := by
      rw [List.any_eq_true]
      refine ⟨kv, hkv, ?_⟩
      unfold outputExists
      rcases hex with h1 | h1 <;> simp [hs, h1]
    simp [this]
  obtain ⟨logs, hlogs, hrun⟩ := Execute_of_skipped env t fs hsk
  rw [hrun]
  exact ⟨rfl, rfl, rfl, effects_finish_logs logs hlogs⟩

/-- C3 on a task with the output `/x/out.txt` already on the file system. -/
theorem Execute_skips_existing_output_witness :
    (∃ kv ∈ (exampleTask [] [("o".toList, ⟨"/x/out.txt".toList, false, none⟩)]).OutTargets,
      kv.2.doStream = false ∧
      (FileSystem.fileExists [("/x/out.txt".toList, "old".toList)] kv.2.GetPath = true ∨
        FileSystem.fileExists [("/x/out.txt".toList, "old".toList)] kv.2.GetTempPath = true)) ∧
    ((Execute exampleEnv (exampleTask [] [("o".toList, ⟨"/x/out.txt".toList, false, none⟩)])
        [("/x/out.txt".toList, "old".toList)]).fs = [("/x/out.txt".toList, "old".toList)] ∧
      (Execute exampleEnv (exampleTask [] [("o".toList, ⟨"/x/out.txt".toList, false, none⟩)])
        [("/x/out.txt".toList, "old".toList)]).task
        = (exampleTask [] [("o".toList, ⟨"/x/out.txt".toList, false, none⟩)]).toTaskData ∧
      (Execute exampleEnv (exampleTask [] [("o".toList, ⟨"/x/out.txt".toList, false, none⟩)])
        [("/x/out.txt".toList, "old".toList)]).status = Status.returned ∧
      effects (Execute exampleEnv
        (exampleTask [] [("o".toList, ⟨"/x/out.txt".toList, false, none⟩)])
        [("/x/out.txt".toList, "old".toList)]).trace = [Event.sendDone, Event.closeDone]) :=
  ⟨by decide, Execute_skips_existing_output _ _ _ (by decide)⟩

/-- C8 as stated fails.  The task has the file output `/x/out.txt` and the streaming output
`/x/stream`; nothing exists on the file system, so no non-streaming output exists and the
FIFO `/x/stream.fifo` is missing.  `Execute` logs the warning and signals completion: the
command is not run and nothing is renamed. -/
theorem Execute_missing_fifo_skips :
    (∀ kv ∈ (exampleTask [] [("o".toList, ⟨"/x/out.txt".toList, false, none⟩),
        ("s".toList, ⟨"/x/stream".toList, true, none⟩)]).OutTargets,
      kv.2.doStream = false → FileSystem.fileExists [] kv.2.GetPath = false ∧
        FileSystem.fileExists [] kv.2.GetTempPath = false) ∧
    (∃ kv ∈ (exampleTask [] [("o".toList, ⟨"/x/out.txt".toList, false, none⟩),
        ("s".toList, ⟨"/x/stream".toList, true, none⟩)]).OutTargets,
      kv.2.doStream = true ∧ FileSystem.fileExists [] kv.2.GetFifoPath = false) ∧
    (Execute exampleEnv (exampleTask [] [("o".toList, ⟨"/x/out.txt".toList, false, none⟩),
        ("s".toList, ⟨"/x/stream".toList, true, none⟩)]) []).trace
      = [Event.log LogLevel.warning "/x/stream.fifo".toList, Event.sendDone,
          Event.closeDone] ∧
    (Execute exampleEnv (exampleTask [] [("o".toList, ⟨"/x/out.txt".toList, false, none⟩),
        ("s".toList, ⟨"/x/stream".toList, true, none⟩)]) []).fs = [] := by
  refine ⟨?_, ?_, ?_, ?_⟩ <;> decide

/-- C8, amended.  A missing FIFO is a skip condition: when no non-streaming output exists
and the FIFO of some streaming output is missing, `Execute` logs a warning for that FIFO
and then behaves as for an existing output: the file system and the task are left as they
are, and apart from log messages it only signals completion, so neither the execution step
nor the commit phase is run. -/
theorem Execute_skips_missing_fifo (env : Env) (t : SciTask) (fs : FileSystem)
    (hnone : ∀ kv ∈ t.OutTargets, kv.2.doStream = false →
      fs.fileExists kv.2.GetPath = false ∧ fs.fileExists kv.2.GetTempPath = false)
    (hfifo : ∃ kv ∈ t.OutTargets, kv.2.doStream = true ∧
      fs.fileExists kv.2.GetFifoPath = false) :
    (Execute env t fs).fs = fs ∧ (Execute env t fs).task = t.toTaskData ∧
    (Execute env t fs).status = Status.returned ∧
    effects (Execute env t fs).trace = [Event.sendDone, Event.closeDone] ∧
    ∃ kv ∈ t.OutTargets, kv.2.doStream = true ∧ fs.fileExists kv.2.GetFifoPath = false ∧
      Event.log LogLevel.warning kv.2.GetFifoPath ∈ (Execute env t fs).trace := by
  obtain ⟨kv, hkv, hs, hf⟩ := hfifo
  have h1 : (anyOutputExists t.toTaskData fs).1 = false := by
    rw [anyOutputExists_fst, List.any_eq_false]
    intro x hx
    unfold outputExists
    cases hxs : x.2.doStream with
    | true => simp
    | false =>
      obtain ⟨h2, h3⟩ := hnone x hx hxs
      simp [h2, h3]
  have h2 : (fifosInOutTargetsMissing t.toTaskData fs).1 = true := by
    rw [fifosInOutTargetsMissing_fst, List.any_eq_true]
    exact ⟨kv, hkv, by simp [fifoMissing, hs, hf]⟩
  have hrun : Execute env t fs = finish t.toTaskData fs
      ((anyOutputExists t.toTaskData fs).2 ++ (fifosInOutTargetsMissing t.toTaskData fs).2) := by
    unfold Execute
    simp only [h1, h2, Bool.false_eq_true, if_false, if_true]
  have hlogs : ∀ e ∈ (anyOutputExists t.toTaskData fs).2 ++
      (fifosInOutTargetsMissing t.toTaskData fs).2, e.isLog = true := by
    intro e he
    rcases List.mem_append.mp he with h3 | h3
    · exact anyOutputExists_snd _ _ e h3
    · exact fifosInOutTargetsMissing_snd _ _ e h3
  rw [hrun]
  refine ⟨rfl, rfl, rfl, effects_finish_logs _ hlogs, kv, hkv, hs, hf, ?_⟩
  simp only [finish]
  apply List.mem_append_left
  apply List.mem_append_right
  exact fifosInOutTargetsMissing_warns fs t.OutTargets (false, []) kv hkv hs hf

/-- C8, amended, on the task with the file output `/x/out.txt` and the streaming output
`/x/stream`, on an empty file system. -/
theorem Execute_skips_missing_fifo_witness :
    (∀ kv ∈ (exampleTask [] [("o".toList, ⟨"/x/out.txt".toList, false, none⟩),
        ("s".toList, ⟨"/x/stream".toList, true, none⟩)]).OutTargets,
      kv.2.doStream = false → FileSystem.fileExists [] kv.2.GetPath = false ∧
        FileSystem.fileExists [] kv.2.GetTempPath = false) ∧
    (∃ kv ∈ (exampleTask [] [("o".toList, ⟨"/x/out.txt".toList, false, none⟩),
        ("s".toList, ⟨"/x/stream".toList, true, none⟩)]).OutTargets,
      kv.2.doStream = true ∧ FileSystem.fileExists [] kv.2.GetFifoPath = false) ∧
    effects (Execute exampleEnv (exampleTask [] [("o".toList, ⟨"/x/out.txt".toList, false, none⟩),
        ("s".toList, ⟨"/x/stream".toList, true, none⟩)]) []).trace
      = [Event.sendDone, Event.closeDone] :=
  ⟨by decide, by decide,
    (Execute_skips_missing_fifo exampleEnv (exampleTask [] [("o".toList,
      ⟨"/x/out.txt".toList, false, none⟩), ("s".toList, ⟨"/x/stream".toList, true, none⟩)]) []
      (by decide) (by decide)).2.2.2.1⟩

/-- C6.  In local mode, with no custom function, when the run is not skipped and the shell
command exits nonzero, the process exits with status 126; apart from log messages the run
consists of the command and the exit, so nothing is renamed, no provenance record is
attached or written (the task is left as it was) and `Done` is neither sent on nor
closed. -/
theorem Execute_command_failure (env : Env) (t : SciTask) (fs : FileSystem)
    (hc : t.CustomExecute = none) (hm : t.ExecMode = ExecMode.ExecModeLocal)
    (hns : skipped t.toTaskData fs = false) (hfail : (env.bash t.Command fs).2 = false) :
    (Execute env t fs).status = Status.exited 126 ∧
    (Execute env t fs).task = t.toTaskData ∧
    (Execute env t fs).fs = (env.bash t.Command fs).1 ∧
    effects (Execute env t fs).trace = [Event.bash t.Command, Event.exit 126] := by
  have hstep : executionStep env t fs = StepResult.stopped (env.bash t.Command fs).1
      [Event.log LogLevel.audit t.Command, Event.bash t.Command,
        Event.log LogLevel.error t.Command, Event.exit 126] (Status.exited 126) := by
    unfold executionStep
    rw [hc, hm]
    simp only [executeCommand]
    revert hfail
    cases env.bash t.Command fs with
    | mk fs1 ok =>
      intro hfail
      simp only at hfail
      subst hfail
      rfl
  obtain ⟨logs, hlogs, hrun⟩ := Execute_of_stopped env t fs _ _ _ hns hstep
  rw [hrun]
  refine ⟨rfl, rfl, rfl, ?_⟩
  simp only
  rw [effects_append, effects_of_logs logs hlogs]
  rfl

/-- C6 on the example task with a shell command that exits nonzero. -/
theorem Execute_command_failure_witness :
    ((exampleTask [] [("o".toList, ⟨"/x/out.txt".toList, false, none⟩)]).CustomExecute = none ∧
      (exampleTask [] [("o".toList, ⟨"/x/out.txt".toList, false, none⟩)]).ExecMode
        = ExecMode.ExecModeLocal ∧
      skipped (exampleTask [] [("o".toList, ⟨"/x/out.txt".toList, false, none⟩)]).toTaskData []
        = false ∧
      (failingEnv.bash (exampleTask [] [("o".toList, ⟨"/x/out.txt".toList, false, none⟩)]).Command
        []).2 = false) ∧
    ((Execute failingEnv (exampleTask [] [("o".toList, ⟨"/x/out.txt".toList, false, none⟩)])
        []).status = Status.exited 126 ∧
      effects (Execute failingEnv
        (exampleTask [] [("o".toList, ⟨"/x/out.txt".toList, false, none⟩)]) []).trace
        = [Event.bash "echo hi".toList, Event.exit 126]) :=
  have h := Execute_command_failure failingEnv
    (exampleTask [] [("o".toList, ⟨"/x/out.txt".toList, false, none⟩)]) [] rfl rfl
    (by decide) rfl
  ⟨⟨rfl, rfl, by decide, rfl⟩, h.1, h.2.2.2⟩

/-- C7.  On every run of `Execute` that returns, whether skipped or not and whatever did
the work, the trace ends with one send on `Done` followed by the close of `Done`, and
neither occurs before: every provenance write and every rename of the run precedes the
send. -/
theorem Execute_done_once (env : Env) (t : SciTask) (fs : FileSystem)
    (hret : (Execute env t fs).status = Status.returned) :
    ∃ pre, (Execute env t fs).trace = pre ++ [Event.sendDone, Event.closeDone] ∧
      Event.sendDone ∉ pre ∧ Event.closeDone ∉ pre ∧
      (Execute env t fs).trace.count Event.sendDone = 1 ∧
      (Execute env t fs).trace.count Event.closeDone = 1 := by
  have hcount : ∀ pre : List Event, Event.sendDone ∉ pre → Event.closeDone ∉ pre →
      (pre ++ [Event.sendDone, Event.closeDone]).count Event.sendDone = 1 ∧
      (pre ++ [Event.sendDone, Event.closeDone]).count Event.closeDone = 1 := by
    intro pre h1 h2
    rw [List.count_append, List.count_append, List.count_eq_zero_of_not_mem h1,
      List.count_eq_zero_of_not_mem h2]
    exact ⟨by decide, by decide⟩
  have hlog : ∀ logs : List Event, (∀ e ∈ logs, e.isLog = true) →
      Event.sendDone ∉ logs ∧ Event.closeDone ∉ logs := by
    intro logs h
    exact ⟨fun hm => (nomatch h _ hm), fun hm => (nomatch h _ hm)⟩
  cases hsk : skipped t.toTaskData fs with
  | true =>
    obtain ⟨logs, hlogs, hrun⟩ := Execute_of_skipped env t fs hsk
    rw [hrun]
    obtain ⟨h1, h2⟩ := hlog logs hlogs
    exact ⟨logs, rfl, h1, h2, hcount logs h1 h2⟩
  | false =>
    obtain ⟨t1, fs1, ev, logs, hstep, hlogs, _, htrace⟩ := Execute_of_returned env t fs hsk hret
    have hev := executionStep_events env t fs fs1 t1 ev hstep
    have hpre : ∀ e ∈ logs ++ ev ++ provEvents t1.OutTargets ++ renameEvents t1.OutTargets,
        e ≠ Event.sendDone ∧ e ≠ Event.closeDone := by
      intro e he
      simp only [List.mem_append] at he
      rcases he with ((he | he) | he) | he
      · have := hlogs e he
        constructor <;> (intro h; rw [h] at this; cases this)
      · rcases hev e he with h | h | h | h
        · constructor <;> (intro h1; rw [h1] at h; cases h)
        · rw [h]; exact ⟨by decide, by decide⟩
        · rw [h]; exact ⟨fun h1 => (nomatch h1), fun h1 => (nomatch h1)⟩
        · rw [h]; exact ⟨fun h1 => (nomatch h1), fun h1 => (nomatch h1)⟩
      · simp only [provEvents, List.mem_flatMap, List.mem_cons, List.mem_singleton,
          List.not_mem_nil, or_false] at he
        obtain ⟨kv, _, h | h⟩ := he <;> rw [h] <;>
          exact ⟨fun h1 => (nomatch h1), fun h1 => (nomatch h1)⟩
      · simp only [renameEvents, List.mem_map] at he
        obtain ⟨kv, _, h⟩ := he
        rw [← h]
        exact ⟨fun h1 => (nomatch h1), fun h1 => (nomatch h1)⟩
    have h1 : Event.sendDone ∉ logs ++ ev ++ provEvents t1.OutTargets ++
        renameEvents t1.OutTargets := fun hm => (hpre _ hm).1 rfl
    have h2 : Event.closeDone ∉ logs ++ ev ++ provEvents t1.OutTargets ++
        renameEvents t1.OutTargets := fun hm => (hpre _ hm).2 rfl
    rw [htrace]
    exact ⟨_, rfl, h1, h2, hcount _ h1 h2⟩

/-- C7 on a run of the example task that executes its command and commits its output. -/
theorem Execute_done_once_witness :
    (Execute exampleEnv (exampleTask [] [("o".toList, ⟨"/x/out.txt".toList, false, none⟩)])
      []).status = Status.returned ∧
    ∃ pre, (Execute exampleEnv
        (exampleTask [] [("o".toList, ⟨"/x/out.txt".toList, false, none⟩)]) []).trace
        = pre ++ [Event.sendDone, Event.closeDone] ∧
      Event.sendDone ∉ pre ∧ Event.closeDone ∉ pre ∧
      (Execute exampleEnv (exampleTask [] [("o".toList, ⟨"/x/out.txt".toList, false, none⟩)])
        []).trace.count Event.sendDone = 1 ∧
      (Execute exampleEnv (exampleTask [] [("o".toList, ⟨"/x/out.txt".toList, false, none⟩)])
        []).trace.count Event.closeDone = 1 :=
  ⟨by decide, Execute_done_once _ _ _ (by decide)⟩

/-- C4.  A run that is not skipped returns, that is, does not stop the program, exactly
when its execution step returns and every rename of the commit can be done.  On every
such run, whatever did the work (the custom function or the backend of any execution
mode): the trace is log messages, the execution step, the provenance loop, then one rename
of the temp path to the final path for each output that is not streaming, then the
completion signal, and every rename in the trace is one of these; the file system the run
leaves is the one the provenance loop left with the temp path of every non-streaming
output renamed to its final path, in order; no path other than these temp and final
paths is changed by the commit, so no path of a streaming output is renamed; and when
these paths are all different, every non-streaming output ends with the content of its
temp path under its final path and without its temp path.  The outputs are those of the
task as the execution step leaves it, which is the task itself when there is no custom
function. -/
theorem Execute_commits_outputs (env : Env) (t : SciTask) (fs : FileSystem)
    (hns : skipped t.toTaskData fs = false) :
    ((Execute env t fs).status = Status.returned ↔
      ∃ t1 fs1 ev, executionStep env t fs = StepResult.done t1 fs1 ev ∧
        commitRenames t1.OutTargets
          (writeSidecars env (buildAuditInfo env t1) t1.OutTargets fs1) ≠ none) ∧
    ((Execute env t fs).status = Status.returned →
      ∃ t1 fs1 ev logs, executionStep env t fs = StepResult.done t1 fs1 ev ∧
        (t.CustomExecute = none → t1 = t.toTaskData) ∧
        (∀ e ∈ logs, e.isLog = true) ∧
        (Execute env t fs).trace = logs ++ ev ++ provEvents t1.OutTargets ++
          renameEvents t1.OutTargets ++ [Event.sendDone, Event.closeDone] ∧
        (∀ kv ∈ t1.OutTargets, kv.2.doStream = false →
          Event.rename kv.2.GetTempPath kv.2.GetPath ∈ renameEvents t1.OutTargets) ∧
        (∀ a b, Event.rename a b ∈ (Execute env t fs).trace →
          ∃ kv ∈ t1.OutTargets, kv.2.doStream = false ∧ a = kv.2.GetTempPath ∧
            b = kv.2.GetPath) ∧
        commitRenames t1.OutTargets
          (writeSidecars env (buildAuditInfo env t1) t1.OutTargets fs1)
          = some (Execute env t fs).fs ∧
        (∀ p, (∀ kv ∈ t1.OutTargets, kv.2.doStream = false →
            p ≠ kv.2.path ++ ".tmp".toList ∧ p ≠ kv.2.path) →
          (Execute env t fs).fs.lookup p
            = (writeSidecars env (buildAuditInfo env t1) t1.OutTargets fs1).lookup p) ∧
        ((commitPaths t1.OutTargets).Nodup →
          ∀ kv ∈ t1.OutTargets, kv.2.doStream = false →
            (writeSidecars env (buildAuditInfo env t1) t1.OutTargets fs1).lookup
              (kv.2.path ++ ".tmp".toList) ≠ none ∧
            (Execute env t fs).fs.lookup kv.2.path
              = (writeSidecars env (buildAuditInfo env t1) t1.OutTargets fs1).lookup
                  (kv.2.path ++ ".tmp".toList) ∧
            (Execute env t fs).fs.lookup (kv.2.path ++ ".tmp".toList) = none)) := by
  have hmain : (Execute env t fs).status = Status.returned →
      ∃ t1 fs1 ev logs, executionStep env t fs = StepResult.done t1 fs1 ev ∧
        (t.CustomExecute = none → t1 = t.toTaskData) ∧
        (∀ e ∈ logs, e.isLog = true) ∧
        (Execute env t fs).trace = logs ++ ev ++ provEvents t1.OutTargets ++
          renameEvents t1.OutTargets ++ [Event.sendDone, Event.closeDone] ∧
        (∀ kv ∈ t1.OutTargets, kv.2.doStream = false →
          Event.rename kv.2.GetTempPath kv.2.GetPath ∈ renameEvents t1.OutTargets) ∧
        (∀ a b, Event.rename a b ∈ (Execute env t fs).trace →
          ∃ kv ∈ t1.OutTargets, kv.2.doStream = false ∧ a = kv.2.GetTempPath ∧
            b = kv.2.GetPath) ∧
        commitRenames t1.OutTargets
          (writeSidecars env (buildAuditInfo env t1) t1.OutTargets fs1)
          = some (Execute env t fs).fs ∧
        (∀ p, (∀ kv ∈ t1.OutTargets, kv.2.doStream = false →
            p ≠ kv.2.path ++ ".tmp".toList ∧ p ≠ kv.2.path) →
          (Execute env t fs).fs.lookup p
            = (writeSidecars env (buildAuditInfo env t1) t1.OutTargets fs1).lookup p) ∧
        ((commitPaths t1.OutTargets).Nodup →
          ∀ kv ∈ t1.OutTargets, kv.2.doStream = false →
            (writeSidecars env (buildAuditInfo env t1) t1.OutTargets fs1).lookup
              (kv.2.path ++ ".tmp".toList) ≠ none ∧
            (Execute env t fs).fs.lookup kv.2.path
              = (writeSidecars env (buildAuditInfo env t1) t1.OutTargets fs1).lookup
                  (kv.2.path ++ ".tmp".toList) ∧
            (Execute env t fs).fs.lookup (kv.2.path ++ ".tmp".toList) = none) := by
    intro hret
    obtain ⟨t1, fs1, ev, logs, hstep, hlogs, _, htrace⟩ := Execute_of_returned env t fs hns hret
    have hfs := Execute_fs_of_returned env t fs fs1 t1 ev hns hstep hret
    refine ⟨t1, fs1, ev, logs, hstep,
      fun hc => executionStep_no_custom env t fs fs1 t1 ev hc hstep, hlogs, htrace,
      ?_, ?_, hfs, ?_, ?_⟩
    · intro kv hkv hs
      simp only [renameEvents, List.mem_map, List.mem_filter]
      exact ⟨kv, ⟨hkv, by simp [hs]⟩, rfl⟩
    · intro a b hab
      rw [htrace] at hab
      simp only [List.mem_append] at hab
      rcases hab with (((he | he) | he) | he) | he
      · exact nomatch hlogs _ he
      · rcases executionStep_events env t fs fs1 t1 ev hstep _ he with h | h | h | h
        · exact nomatch h
        · exact nomatch h
        · exact nomatch h
        · exact nomatch h
      · simp only [provEvents, List.mem_flatMap, List.mem_cons, List.mem_singleton,
          List.not_mem_nil, or_false] at he
        obtain ⟨kv, _, h | h⟩ := he
        · exact nomatch h
        · exact nomatch h
      · simp only [renameEvents, List.mem_map, List.mem_filter] at he
        obtain ⟨kv, ⟨hkv, hs⟩, h⟩ := he
        injection h with h1 h2
        exact ⟨kv, hkv, by simpa using hs, h1.symm, h2.symm⟩
      · simp only [List.mem_cons, List.mem_singleton, List.not_mem_nil, or_false] at he
        rcases he with h | h
        · exact nomatch h
        · exact nomatch h
    · intro p hp
      apply commitRenames_frame _ _ _ hfs p
      intro hmem
      obtain ⟨kv, hkv, hs, hor⟩ := (mem_commitPaths p _).mp hmem
      obtain ⟨h1, h2⟩ := hp kv hkv hs
      exact hor.elim h1 h2
    · intro hnd kv hkv hs
      exact commitRenames_effect _ _ _ hfs hnd kv hkv hs
  refine ⟨⟨?_, ?_⟩, hmain⟩
  · intro hret
    obtain ⟨t1, fs1, ev, _, hstep, _, _, _, _, _, hfs, _⟩ := hmain hret
    exact ⟨t1, fs1, ev, hstep, by rw [hfs]; exact fun h => nomatch h⟩
  · rintro ⟨t1, fs1, ev, hstep, hc⟩
    have hsk := hns
    unfold skipped at hsk
    simp only [Bool.or_eq_false_iff] at hsk
    have hsnd := atomizeTargets_snd
      (attachAuditInfo env (buildAuditInfo env t1) t1.OutTargets fs1).1
      (attachAuditInfo env (buildAuditInfo env t1) t1.OutTargets fs1).2.1
    rw [attachAuditInfo_fst, commitRenames_setAuditInfos, attachAuditInfo_fs] at hsnd
    unfold Execute
    simp only [hsk.1, hsk.2, Bool.false_eq_true, if_false, hstep]
    rw [attachAuditInfo_fst, attachAuditInfo_fs]
    generalize atomizeTargets (setAuditInfos (buildAuditInfo env t1) t1.OutTargets)
      (writeSidecars env (buildAuditInfo env t1) t1.OutTargets fs1) = r at hsnd ⊢
    obtain ⟨ev3, o⟩ := r
    cases o with
    | none => exact absurd hsnd.symm hc
    | some fs3 => rfl

/-- C4 on the example task with the file output `/x/out.txt` and the streaming output
`/x/stream`, whose FIFO exists: the run returns, with one rename, of `/x/out.txt.tmp`,
after which the final path holds what the command wrote, the temp path is gone and the
FIFO is as before. -/
theorem Execute_commits_outputs_witness :
    skipped (exampleTask [] [("o".toList, ⟨"/x/out.txt".toList, false, none⟩),
        ("s".toList, ⟨"/x/stream".toList, true, none⟩)]).toTaskData
        [("/x/stream.fifo".toList, [])] = false ∧
    (Execute exampleEnv (exampleTask [] [("o".toList, ⟨"/x/out.txt".toList, false, none⟩),
        ("s".toList, ⟨"/x/stream".toList, true, none⟩)])
        [("/x/stream.fifo".toList, [])]).status = Status.returned ∧
    effects (Execute exampleEnv (exampleTask []
        [("o".toList, ⟨"/x/out.txt".toList, false, none⟩),
          ("s".toList, ⟨"/x/stream".toList, true, none⟩)])
        [("/x/stream.fifo".toList, [])]).trace
      = [Event.bash "echo hi".toList,
          Event.setAuditInfo "/x/out.txt".toList,
          Event.writeAuditLog "/x/out.txt.audit.json".toList,
          Event.setAuditInfo "/x/stream".toList,
          Event.writeAuditLog "/x/stream.audit.json".toList,
          Event.rename "/x/out.txt.tmp".toList "/x/out.txt".toList,
          Event.sendDone, Event.closeDone] ∧
    (Execute exampleEnv (exampleTask []
        [("o".toList, ⟨"/x/out.txt".toList, false, none⟩),
          ("s".toList, ⟨"/x/stream".toList, true, none⟩)])
        [("/x/stream.fifo".toList, [])]).fs.lookup "/x/out.txt".toList
      = some "data".toList ∧
    (Execute exampleEnv (exampleTask []
        [("o".toList, ⟨"/x/out.txt".toList, false, none⟩),
          ("s".toList, ⟨"/x/stream".toList, true, none⟩)])
        [("/x/stream.fifo".toList, [])]).fs.lookup "/x/out.txt.tmp".toList = none ∧
    (Execute exampleEnv (exampleTask []
        [("o".toList, ⟨"/x/out.txt".toList, false, none⟩),
          ("s".toList, ⟨"/x/stream".toList, true, none⟩)])
        [("/x/stream.fifo".toList, [])]).fs.lookup "/x/stream.fifo".toList = some [] ∧
    ∃ t1 fs1 ev, executionStep exampleEnv (exampleTask []
        [("o".toList, ⟨"/x/out.txt".toList, false, none⟩),
          ("s".toList, ⟨"/x/stream".toList, true, none⟩)])
        [("/x/stream.fifo".toList, [])] = StepResult.done t1 fs1 ev ∧
      commitRenames t1.OutTargets
        (writeSidecars exampleEnv (buildAuditInfo exampleEnv t1) t1.OutTargets fs1)
        = some (Execute exampleEnv (exampleTask []
          [("o".toList, ⟨"/x/out.txt".toList, false, none⟩),
            ("s".toList, ⟨"/x/stream".toList, true, none⟩)])
          [("/x/stream.fifo".toList, [])]).fs :=
  have h := (Execute_commits_outputs exampleEnv (exampleTask []
    [("o".toList, ⟨"/x/out.txt".toList, false, none⟩),
      ("s".toList, ⟨"/x/stream".toList, true, none⟩)])
    [("/x/stream.fifo".toList, [])] (by decide)).2 (by decide)
  ⟨by decide, by decide, by decide, by decide, by decide, by decide,
    h.elim fun t1 h1 => h1.elim fun fs1 h2 => h2.elim fun ev h3 => h3.elim fun _ h4 =>
      ⟨t1, fs1, ev, h4.1, h4.2.2.2.2.2.2.1⟩⟩

/-- C5 as stated fails.  The inputs a and b are distinct handles with the same path
`/x/in.txt` and with different records (commands `c1` and `c2`).  After a run that is not
skipped and returns, the upstream map of the output's record has one entry for the two
inputs, and it holds the record of the input visited last: with a before b the record of
b, with b before a the record of a. -/
theorem Execute_upstream_collision :
    skipped (exampleTask
        [("a".toList, ⟨"/x/in.txt".toList, false, some (AuditInfo.mk "c1".toList [] 0 [])⟩),
          ("b".toList, ⟨"/x/in.txt".toList, false, some (AuditInfo.mk "c2".toList [] 0 [])⟩)]
        [("o".toList, ⟨"/x/out.txt".toList, false, none⟩)]).toTaskData [] = false ∧
    (Execute exampleEnv (exampleTask
        [("a".toList, ⟨"/x/in.txt".toList, false, some (AuditInfo.mk "c1".toList [] 0 [])⟩),
          ("b".toList, ⟨"/x/in.txt".toList, false, some (AuditInfo.mk "c2".toList [] 0 [])⟩)]
        [("o".toList, ⟨"/x/out.txt".toList, false, none⟩)]) []).status = Status.returned ∧
    (Execute exampleEnv (exampleTask
        [("a".toList, ⟨"/x/in.txt".toList, false, some (AuditInfo.mk "c1".toList [] 0 [])⟩),
          ("b".toList, ⟨"/x/in.txt".toList, false, some (AuditInfo.mk "c2".toList [] 0 [])⟩)]
        [("o".toList, ⟨"/x/out.txt".toList, false, none⟩)]) []).task.OutTargets.map
      (fun kv => kv.2.auditInfo.map (fun r =>
        r.UpstreamAuditInfos.map (fun e => (e.1, e.2.map AuditInfo.Command))))
      = [some [("/x/in.txt".toList, some "c2".toList)]] ∧
    (Execute exampleEnv (exampleTask
        [("b".toList, ⟨"/x/in.txt".toList, false, some (AuditInfo.mk "c2".toList [] 0 [])⟩),
          ("a".toList, ⟨"/x/in.txt".toList, false, some (AuditInfo.mk "c1".toList [] 0 [])⟩)]
        [("o".toList, ⟨"/x/out.txt".toList, false, none⟩)]) []).task.OutTargets.map
      (fun kv => kv.2.auditInfo.map (fun r =>
        r.UpstreamAuditInfos.map (fun e => (e.1, e.2.map AuditInfo.Command))))
      = [some [("/x/in.txt".toList, some "c1".toList)]] := by
  refine ⟨?_, ?_, ?_, ?_⟩ <;> decide

/-- C5, amended.  After a run that is not skipped and returns, every output, streaming or
not, carries a provenance record whose upstream map has distinct keys, has as keys exactly
the paths of the inputs, and holds under each key the record of an input with that path;
so the entry under an input's path is that input's own record whenever the inputs with
that path carry the same record, in particular when the input paths are distinct.  The
inputs are those of the task as the execution step leaves it, which is the task itself
when there is no custom function. -/
theorem Execute_upstream (env : Env) (t : SciTask) (fs : FileSystem)
    (hns : skipped t.toTaskData fs = false)
    (hret : (Execute env t fs).status = Status.returned) :
    ∃ t1 fs1 ev, executionStep env t fs = StepResult.done t1 fs1 ev ∧
      (t.CustomExecute = none → t1 = t.toTaskData) ∧
      (Execute env t fs).task.OutTargets.length = t1.OutTargets.length ∧
      ∀ kv ∈ (Execute env t fs).task.OutTargets, ∃ r, kv.2.auditInfo = some r ∧
        (r.UpstreamAuditInfos.map Prod.fst).Nodup ∧
        (∀ k, k ∈ r.UpstreamAuditInfos.map Prod.fst ↔ ∃ i ∈ t1.InTargets, i.2.GetPath = k) ∧
        (∀ e ∈ r.UpstreamAuditInfos,
          ∃ i ∈ t1.InTargets, i.2.GetPath = e.1 ∧ i.2.auditInfo = e.2) ∧
        (∀ i ∈ t1.InTargets,
          (∀ j ∈ t1.InTargets, j.2.GetPath = i.2.GetPath → j.2.auditInfo = i.2.auditInfo) →
          r.UpstreamAuditInfos.lookup i.2.GetPath = some i.2.auditInfo) := by
  obtain ⟨t1, fs1, ev, logs, hstep, _, htask, _⟩ := Execute_of_returned env t fs hns hret
  refine ⟨t1, fs1, ev, hstep,
    fun hc => executionStep_no_custom env t fs fs1 t1 ev hc hstep, ?_, ?_⟩
  · rw [htask]
    simp [setAuditInfos]
  · intro kv hkv
    rw [htask] at hkv
    simp only [setAuditInfos, List.mem_map] at hkv
    obtain ⟨kv0, _, hkv0⟩ := hkv
    obtain ⟨h1, h2, h3⟩ := addUpstream_spec t1.InTargets [] List.nodup_nil
    have hup : (buildAuditInfo env t1).UpstreamAuditInfos = addUpstream t1.InTargets [] := rfl
    refine ⟨buildAuditInfo env t1, by rw [← hkv0]; rfl, ?_, ?_, ?_, ?_⟩
    · rw [hup]
      exact h1
    · intro k
      rw [hup, h2 k]
      constructor
      · rintro (h | h)
        · cases h
        · exact h
      · exact Or.inr
    · intro e he
      rw [hup] at he
      rcases h3 e he with h | h
      · cases h
      · exact h
    · intro i hi hsame
      have hk : i.2.GetPath ∈ (addUpstream t1.InTargets []).map Prod.fst :=
        (h2 _).mpr (Or.inr ⟨i, hi, rfl⟩)
      obtain ⟨e, he, hek⟩ := List.mem_map.mp hk
      rcases h3 e he with h | ⟨j, hj, hj1, hj2⟩
      · cases h
      · have hv : e.2 = i.2.auditInfo := by
          rw [← hj2]
          exact hsame j hj (by rw [hj1, hek])
        rw [hup]
        apply lookup_of_mem_nodup _ _ _ h1
        rw [← hek, ← hv]
        exact he

/-- C5, amended, on the example task with the inputs `/x/in1.txt` and `/x/in2.txt`. -/
theorem Execute_upstream_witness :
    (skipped (exampleTask
        [("a".toList, ⟨"/x/in1.txt".toList, false, some (AuditInfo.mk "c1".toList [] 0 [])⟩),
          ("b".toList, ⟨"/x/in2.txt".toList, false, none⟩)]
        [("o".toList, ⟨"/x/out.txt".toList, false, none⟩)]).toTaskData [] = false ∧
      (Execute exampleEnv (exampleTask
        [("a".toList, ⟨"/x/in1.txt".toList, false, some (AuditInfo.mk "c1".toList [] 0 [])⟩),
          ("b".toList, ⟨"/x/in2.txt".toList, false, none⟩)]
        [("o".toList, ⟨"/x/out.txt".toList, false, none⟩)]) []).status = Status.returned) ∧
    (Execute exampleEnv (exampleTask
        [("a".toList, ⟨"/x/in1.txt".toList, false, some (AuditInfo.mk "c1".toList [] 0 [])⟩),
          ("b".toList, ⟨"/x/in2.txt".toList, false, none⟩)]
        [("o".toList, ⟨"/x/out.txt".toList, false, none⟩)]) []).task.OutTargets.map
      (fun kv => kv.2.auditInfo.map (fun r =>
        r.UpstreamAuditInfos.map (fun e => (e.1, e.2.map AuditInfo.Command))))
      = [some [("/x/in1.txt".toList, some "c1".toList), ("/x/in2.txt".toList, none)]] ∧
    ∃ t1 fs1 ev, executionStep exampleEnv (exampleTask
        [("a".toList, ⟨"/x/in1.txt".toList, false, some (AuditInfo.mk "c1".toList [] 0 [])⟩),
          ("b".toList, ⟨"/x/in2.txt".toList, false, none⟩)]
        [("o".toList, ⟨"/x/out.txt".toList, false, none⟩)]) [] = StepResult.done t1 fs1 ev ∧
      ∀ kv ∈ (Execute exampleEnv (exampleTask
        [("a".toList, ⟨"/x/in1.txt".toList, false, some (AuditInfo.mk "c1".toList [] 0 [])⟩),
          ("b".toList, ⟨"/x/in2.txt".toList, false, none⟩)]
        [("o".toList, ⟨"/x/out.txt".toList, false, none⟩)]) []).task.OutTargets,
        ∃ r, kv.2.auditInfo = some r ∧ (r.UpstreamAuditInfos.map Prod.fst).Nodup ∧
          ∀ k, k ∈ r.UpstreamAuditInfos.map Prod.fst ↔ ∃ i ∈ t1.InTargets, i.2.GetPath = k :=
  have h := Execute_upstream exampleEnv (exampleTask
    [("a".toList, ⟨"/x/in1.txt".toList, false, some (AuditInfo.mk "c1".toList [] 0 [])⟩),
      ("b".toList, ⟨"/x/in2.txt".toList, false, none⟩)]
    [("o".toList, ⟨"/x/out.txt".toList, false, none⟩)]) [] (by decide) (by decide)
  ⟨⟨by decide, by decide⟩, by decide,
    h.elim fun t1 h1 => h1.elim fun fs1 h2 => h2.elim fun ev h3 =>
      ⟨t1, fs1, ev, h3.1, fun kv hkv =>
        (h3.2.2.2 kv hkv).elim fun r hr => ⟨r, hr.1, hr.2.1, hr.2.2.1⟩⟩⟩

/-- C9 as stated fails.  The task has a custom function and the command `echo hi`; its run
is not skipped and returns, and the record attached to its output has the command
`echo hi`, not the empty string. -/
theorem Execute_custom_command_not_empty :
    customTask.CustomExecute.isSome = true ∧
    skipped customTask.toTaskData [] = false ∧
    (Execute exampleEnv customTask []).status = Status.returned ∧
    effects (Execute exampleEnv customTask []).trace
      = [Event.customExecute, Event.setAuditInfo "/x/out.txt".toList,
          Event.writeAuditLog "/x/out.txt.audit.json".toList,
          Event.rename "/x/out.txt.tmp".toList "/x/out.txt".toList,
          Event.sendDone, Event.closeDone] ∧
    (Execute exampleEnv customTask []).task.OutTargets.map
      (fun kv => kv.2.auditInfo.map AuditInfo.Command) = [some "echo hi".toList] := by
  refine ⟨?_, ?_, ?_, ?_, ?_⟩ <;> decide

/-- C9, amended.  For a task with a custom function whose run is not skipped and returns,
the record attached to each output has as its command the command of the task as the
custom function leaves it, which is the task's resolved command whenever the function does
not change that field. -/
theorem Execute_custom_command (env : Env) (t : SciTask) (fs : FileSystem)
    (f : TaskData → FileSystem → Option (TaskData × FileSystem))
    (hc : t.CustomExecute = some f) (hns : skipped t.toTaskData fs = false)
    (hret : (Execute env t fs).status = Status.returned) :
    ∃ t1 fs1, f t.toTaskData fs = some (t1, fs1) ∧
      ∀ kv ∈ (Execute env t fs).task.OutTargets,
        ∃ r, kv.2.auditInfo = some r ∧ r.Command = t1.Command := by
  obtain ⟨t1, fs1, ev, logs, hstep, _, htask, _⟩ := Execute_of_returned env t fs hns hret
  have hf : f t.toTaskData fs = some (t1, fs1) := by
    unfold executionStep at hstep
    rw [hc] at hstep
    simp only at hstep
    revert hstep
    cases f t.toTaskData fs with
    | none => intro hstep; cases hstep
    | some r =>
      intro hstep
      injection hstep with h1 h2 _
      rw [← h1, ← h2]
  refine ⟨t1, fs1, hf, ?_⟩
  intro kv hkv
  rw [htask] at hkv
  simp only [setAuditInfos, List.mem_map] at hkv
  obtain ⟨kv0, _, hkv0⟩ := hkv
  exact ⟨buildAuditInfo env t1, by rw [← hkv0]; rfl, rfl⟩

/-- C9, amended, on the example task with a custom function. -/
theorem Execute_custom_command_witness :
    (skipped customTask.toTaskData [] = false ∧
      (Execute exampleEnv customTask []).status = Status.returned) ∧
    ∃ t1 fs1, (fun (t : TaskData) (fs : FileSystem) =>
        some (t, fs.write "/x/out.txt.tmp".toList "data".toList)) customTask.toTaskData []
        = some (t1, fs1) ∧
      ∀ kv ∈ (Execute exampleEnv customTask []).task.OutTargets,
        ∃ r, kv.2.auditInfo = some r ∧ r.Command = t1.Command :=
  ⟨⟨by decide, by decide⟩,
    Execute_custom_command exampleEnv customTask [] _ rfl (by decide) (by decide)⟩

end SciPipe
